import Mathlib

/-!
# Verification of `random-stable-marriage-solver.c`

A shallow embedding of the C program that generates a random instance of the
stable marriage problem (n sellers, n buyers, each side holding permutation
preference lists over the other) and solves it with seller-proposing deferred
acceptance (Gale–Shapley), together with proofs of the specification's claims:
stability, totality, seller-optimality, recorded acceptance ranks, cursor
invariants, termination bounds, the generator's permutation invariant, and the
command-line argument handling.

Machine integers are modelled as `Nat`/`Int`; the `-1` sentinels of the C code
are kept as literal `Int` values. C arrays become `List`s accessed with `getD`
(all accesses that matter are proved in bounds). The C `rand()` stream is an
arbitrary function `r : Nat → Nat` whose values are bounded by `RAND_MAX`
(written `RMAX` below), `r t` being the value of the `t`-th `rand()` call.
-/

namespace StableMarriage

/-! ## Command-line surface (main, lines 25–31) -/

/-- Outcome of `main`'s argument handling: either the usage message plus
`exit(1)`, or proceeding to run with a value of `n`. -/
inductive ArgOutcome where
  | usageError : ArgOutcome
  | run : Int → ArgOutcome
deriving DecidableEq, Repr

/-- Accumulate a decimal digit run, as `atoi` does after sign handling:
stop at the first non-digit. -/
def digitsVal : List Char → Nat → Nat
  | [], acc => acc
  | c :: cs, acc => if c.isDigit then digitsVal cs (acc * 10 + (c.toNat - 48)) else acc

/-- Model of C `atoi`: skip leading whitespace, optional sign, then a run of
digits; yields 0 when no digits are present. -/
def atoi (s : String) : Int :=
  match s.data.dropWhile (fun c => c.isWhitespace) with
  | '-' :: rest => -(digitsVal rest 0 : Int)
  | '+' :: rest => (digitsVal rest 0 : Int)
  | rest => (digitsVal rest 0 : Int)

/-- `main`'s argument handling (lines 25–31): `n` is initialized to 0; with no
arguments (`argc == 1`) the program prints the usage line and exits; with
exactly one argument `n = atoi(argv[1])`; with more arguments both branches are
skipped and `n` stays 0. `argv` includes the program name. -/
def parse_args (argv : List String) : ArgOutcome :=
  if argv.length = 1 then ArgOutcome.usageError
  else if argv.length = 2 then ArgOutcome.run (atoi (argv.getD 1 ""))
  else ArgOutcome.run 0

/-! ## Preference generator (shuffle_array, lines 10–17; generation loop, lines 40–55) -/

/-- The three-assignment swap of `shuffle_array`'s body:
`t = array[j]; array[j] = array[i]; array[i] = t;`. -/
def swapAt (a : List Nat) (i j : Nat) : List Nat :=
  let t := a.getD j 0
  (a.set j (a.getD i 0)).set i t

/-- The index `j = i + rand() / (RAND_MAX / (n - i) + 1)` drawn at step `i` of
`shuffle_array`, where `rv` is the `rand()` value. -/
def rand_j (RMAX rv n i : Nat) : Nat := i + rv / (RMAX / (n - i) + 1)

/-- `shuffle_array(array, n)` from the C source: for `i` from 0 to `n-2`,
swap positions `i` and `j` where `j` is drawn by `rand_j`. `t0` is the number
of `rand()` calls consumed before this call, so step `i` uses `r (t0 + i)`;
one call consumes `n - 1` values. -/
def shuffle_array (RMAX : Nat) (r : Nat → Nat) (t0 : Nat) (a : List Nat) (n : Nat) : List Nat :=
  (List.range (n - 1)).foldl (fun acc i => swapAt acc i (rand_j RMAX (r (t0 + i)) n i)) a

/-- The successive states of the single `randlist` working buffer in `main`'s
generation loop (lines 40–55). `randlist_after 0` is the identity sequence the
buffer is initialized to; `randlist_after (k+1)` is the buffer after the
`(k+1)`-th `shuffle_array` call, which starts from the buffer as the previous
call left it — the buffer is never reset to the identity between calls. The
`k`-th call consumes the `rand()` values numbered `(n-1)*k` onward. -/
def randlist_after (RMAX : Nat) (r : Nat → Nat) (n : Nat) : Nat → List Nat
  | 0 => List.range n
  | k + 1 => shuffle_array RMAX r ((n - 1) * k) (randlist_after RMAX r n k) n

/-- `seller_prefs` as generated by the loop at lines 46–55: row `i` is a copy
of the buffer after the `(2i+1)`-th shuffle (shuffles alternate seller row,
buyer row). -/
def seller_prefs_gen (RMAX : Nat) (r : Nat → Nat) (n : Nat) : List (List Nat) :=
  (List.range n).map (fun i => randlist_after RMAX r n (2 * i + 1))

/-- `buyer_prefs` as generated by the loop at lines 46–55: row `i` is a copy
of the buffer after the `(2i+2)`-th shuffle. -/
def buyer_prefs_gen (RMAX : Nat) (r : Nat → Nat) (n : Nat) : List (List Nat) :=
  (List.range n).map (fun i => randlist_after RMAX r n (2 * i + 2))

/-! ## The matching engine state (main, lines 33–72) -/

/-- The mutable state of `main`'s proposal loop: the per-seller proposal
cursors, the per-buyer recorded acceptance rank, the two match arrays (with
`-1` as the unmatched sentinel), the count of unmatched sellers, and the
persistent temporary `curr_seller_rank` (declared outside the loop at line 70,
so its value survives between iterations). -/
structure GSState where
  seller_next_choices : List Nat
  buyer_final_prefs : List Int
  seller_matches : List Int
  buyer_matches : List Int
  bachelor_count : Int
  curr_seller_rank : Int
deriving DecidableEq, Repr

/-- The state after the initialization loop at lines 59–64 and the variable
setup at lines 66–72. -/
def init_state (n : Nat) : GSState where
  seller_next_choices := List.replicate n 0
  buyer_final_prefs := List.replicate n (-1)
  seller_matches := List.replicate n (-1)
  buyer_matches := List.replicate n (-1)
  bachelor_count := (n : Int)
  curr_seller_rank := -1

/-- The linear scan at lines 81–85: `for j in [0,n)`, if
`buyer_prefs[curr_buyer][j] == curr_seller` then `curr_seller_rank = j`.
`r0` is the value `curr_seller_rank` holds before the scan (it is only
overwritten when a match is found, keeping its previous value otherwise). -/
def rank_scan (n : Nat) (bpref : List Nat) (s : Nat) (r0 : Int) : Int :=
  (List.range n).foldl (fun r j => if bpref.getD j 0 = s then (j : Int) else r) r0

/-- One iteration of the inner `for (curr_seller ...)` loop body
(lines 76–107): if `curr_seller` is unmatched, it proposes to the next buyer
on its list; the buyer accepts if free, switches if it prefers the proposer to
its incumbent (freeing the incumbent), and rejects otherwise. -/
def propose (sp bp : List (List Nat)) (n : Nat) (st : GSState) (curr_seller : Nat) : GSState :=
  if st.seller_matches.getD curr_seller 0 = -1 then
    let curr_buyer := (sp.getD curr_seller []).getD (st.seller_next_choices.getD curr_seller 0) 0
    let next := st.seller_next_choices.set curr_seller
      (st.seller_next_choices.getD curr_seller 0 + 1)
    let other_seller := st.buyer_matches.getD curr_buyer 0
    let rank := rank_scan n (bp.getD curr_buyer []) curr_seller st.curr_seller_rank
    if other_seller = -1 then
      { st with
        seller_next_choices := next
        buyer_final_prefs := st.buyer_final_prefs.set curr_buyer rank
        buyer_matches := st.buyer_matches.set curr_buyer (curr_seller : Int)
        seller_matches := st.seller_matches.set curr_seller ((curr_buyer : Int))
        bachelor_count := st.bachelor_count - 1
        curr_seller_rank := rank }
    else
      let other_seller_rank := st.buyer_final_prefs.getD curr_buyer 0
      if rank < other_seller_rank then
        { st with
          seller_next_choices := next
          buyer_final_prefs := st.buyer_final_prefs.set curr_buyer rank
          buyer_matches := st.buyer_matches.set curr_buyer (curr_seller : Int)
          seller_matches :=
            (st.seller_matches.set curr_seller ((curr_buyer : Int))).set other_seller.toNat (-1)
          curr_seller_rank := rank }
      else
        { st with
          seller_next_choices := next
          curr_seller_rank := rank }
  else st

/-- One full pass of the inner `for` loop over sellers `0 .. n-1`
(lines 75–108). -/
def gs_pass (sp bp : List (List Nat)) (n : Nat) (st : GSState) : GSState :=
  (List.range n).foldl (propose sp bp n) st

/-- The outer `while (bachelor_count > 0)` loop (lines 74–109), given enough
fuel (number of passes allowed); the C loop has no fuel bound, and we prove
below that `n*n + 1` passes always suffice on valid input. -/
def gs_loop (sp bp : List (List Nat)) (n : Nat) : Nat → GSState → GSState
  | 0, st => st
  | fuel + 1, st =>
    if st.bachelor_count > 0 then gs_loop sp bp n fuel (gs_pass sp bp n st) else st

/-- The engine: run the proposal loop from the initial state with the proven
sufficient fuel `n*n + 1`. -/
def gs_run (sp bp : List (List Nat)) (n : Nat) : GSState :=
  gs_loop sp bp n (n * n + 1) (init_state n)

/-! ## Spec-side predicates -/

/-- Row `s` of the seller preference table. -/
def srow (sp : List (List Nat)) (s : Nat) : List Nat := sp.getD s []

/-- Row `b` of the buyer preference table. -/
def brow (bp : List (List Nat)) (b : Nat) : List Nat := bp.getD b []

/-- A preference row is a permutation of `[0, n)`: length `n`, no repeats, all
entries in range. -/
def perm_row (n : Nat) (row : List Nat) : Prop :=
  row.length = n ∧ row.Nodup ∧ ∀ x ∈ row, x < n

instance (n : Nat) (row : List Nat) : Decidable (perm_row n row) := by
  unfold perm_row; infer_instance

/-- Valid engine input: two `n × n` tables whose rows are permutations of
`[0, n)`. -/
def valid_prefs (n : Nat) (sp bp : List (List Nat)) : Prop :=
  sp.length = n ∧ bp.length = n ∧ (∀ row ∈ sp, perm_row n row) ∧ ∀ row ∈ bp, perm_row n row

instance (n : Nat) (sp bp : List (List Nat)) : Decidable (valid_prefs n sp bp) := by
  unfold valid_prefs; infer_instance

/-- The rank of `x` in a preference row: its position, lower = more
preferred. -/
def rank_of (row : List Nat) (x : Nat) : Nat := row.indexOf x

/-- A matching given as the seller→buyer assignment list `M` (seller `s` is
matched to buyer `M s`, and buyer `b` to seller `M.indexOf b`); it is stable
when it is a bijection and no blocking pair exists: no seller `s` and buyer
`b`, not matched to each other, such that `s` ranks `b` strictly before its
own partner and `b` ranks `s` strictly before its own partner. -/
def is_stable_matching (n : Nat) (sp bp : List (List Nat)) (M : List Nat) : Prop :=
  M.length = n ∧ M.Nodup ∧ (∀ x ∈ M, x < n) ∧
    ∀ s < n, ∀ b < n, M.getD s 0 ≠ b →
      ¬(rank_of (srow sp s) b < rank_of (srow sp s) (M.getD s 0) ∧
        rank_of (brow bp b) s < rank_of (brow bp b) (M.indexOf b))

instance (n : Nat) (sp bp : List (List Nat)) (M : List Nat) :
    Decidable (is_stable_matching n sp bp M) := by
  unfold is_stable_matching; infer_instance

/-! ## List access helper lemmas -/

theorem getD_set_self {α : Type} (l : List α) (i : Nat) (x d : α) (h : i < l.length) :
    (l.set i x).getD i d = x := by
  simp [List.getD_eq_getElem?_getD, List.getElem?_set_self h]

theorem getD_set_ne {α : Type} (l : List α) {i j : Nat} (h : i ≠ j) (x d : α) :
    (l.set i x).getD j d = l.getD j d := by
  simp [List.getD_eq_getElem?_getD, List.getElem?_set_ne h]

theorem getD_replicate_of_lt {α : Type} {n i : Nat} (x d : α) (h : i < n) :
    (List.replicate n x).getD i d = x := by
  rw [List.getD_eq_getElem (List.replicate n x) d (by simpa using h)]
  exact List.getElem_replicate (h := by simpa using h)

/-- Every element of `[0, n)` occurs in a row that is a permutation of `[0, n)`. -/
theorem perm_row_mem {n : Nat} {row : List Nat} (h : perm_row n row) {x : Nat} (hx : x < n) :
    x ∈ row := by
  obtain ⟨hlen, hnd, hmem⟩ := h
  have hsub : row.toFinset ⊆ Finset.range n := by
    intro y hy
    exact Finset.mem_range.mpr (hmem y (List.mem_toFinset.mp hy))
  have hcard : (Finset.range n).card ≤ row.toFinset.card := by
    rw [List.toFinset_card_of_nodup hnd, hlen, Finset.card_range]
  have := Finset.eq_of_subset_of_card_le hsub hcard
  have : x ∈ row.toFinset := by rw [this]; exact Finset.mem_range.mpr hx
  exact List.mem_toFinset.mp this

theorem rank_of_lt {n : Nat} {row : List Nat} (h : perm_row n row) {x : Nat} (hx : x < n) :
    rank_of row x < n := by
  have := List.indexOf_lt_length.mpr (perm_row_mem h hx)
  simpa [rank_of, h.1] using this

theorem getD_rank_of {n : Nat} {row : List Nat} (h : perm_row n row) {x : Nat} (hx : x < n) :
    row.getD (rank_of row x) 0 = x := by
  have hlt : List.indexOf x row < row.length := List.indexOf_lt_length.mpr (perm_row_mem h hx)
  rw [rank_of, List.getD_eq_getElem row 0 hlt]
  exact List.getElem_indexOf hlt

theorem rank_of_getD {n : Nat} {row : List Nat} (h : perm_row n row) {j : Nat} (hj : j < n) :
    rank_of row (row.getD j 0) = j := by
  have hj' : j < row.length := by rw [h.1]; exact hj
  rw [List.getD_eq_getElem row 0 hj']
  exact List.indexOf_getElem h.2.1 j hj'

theorem rank_of_inj {n : Nat} {row : List Nat} (h : perm_row n row) {x y : Nat}
    (hx : x < n) (hy : y < n) (hr : rank_of row x = rank_of row y) : x = y := by
  have := getD_rank_of h hx
  rw [hr, getD_rank_of h hy] at this
  exact this.symm

theorem getD_row_lt {n : Nat} {row : List Nat} (h : perm_row n row) {j : Nat} (hj : j < n) :
    row.getD j 0 < n := by
  have hj' : j < row.length := by rw [h.1]; exact hj
  rw [List.getD_eq_getElem row 0 hj']
  exact h.2.2 _ (List.getElem_mem hj')

theorem getD_row_ne {n : Nat} {row : List Nat} (h : perm_row n row) {j k : Nat}
    (hj : j < n) (hk : k < n) (hjk : j ≠ k) : row.getD j 0 ≠ row.getD k 0 := by
  intro he
  have := rank_of_getD h hj
  rw [he, rank_of_getD h hk] at this
  exact hjk this.symm

/-! ## The rank scan computes the buyer's rank of the proposer -/

theorem rank_scan_zero (row : List Nat) (s : Nat) (r0 : Int) : rank_scan 0 row s r0 = r0 := rfl

theorem rank_scan_succ (m : Nat) (row : List Nat) (s : Nat) (r0 : Int) :
    rank_scan (m + 1) row s r0 =
      if row.getD m 0 = s then (m : Int) else rank_scan m row s r0 := by
  unfold rank_scan
  rw [List.range_succ, List.foldl_append]
  simp

/-- The scan at lines 81–85 returns the unique matching index when one exists
below the scan bound. -/
theorem rank_scan_eq_of_unique (row : List Nat) (s : Nat) (j0 : Nat) :
    ∀ (m : Nat) (r0 : Int), j0 < m → row.getD j0 0 = s →
      (∀ j, j < m → row.getD j 0 = s → j = j0) → rank_scan m row s r0 = (j0 : Int) := by
  intro m
  induction m with
  | zero => intro r0 h; omega
  | succ k ih =>
    intro r0 hj0 hmatch huniq
    rw [rank_scan_succ]
    by_cases hk : row.getD k 0 = s
    · have : k = j0 := huniq k (by omega) hk
      rw [if_pos hk, this]
    · rw [if_neg hk]
      have hj0k : j0 < k := by
        rcases Nat.lt_succ_iff_lt_or_eq.mp hj0 with h | h
        · exact h
        · exact absurd (h ▸ hmatch) hk
      exact ih r0 hj0k hmatch (fun j hj hs => huniq j (by omega) hs)

/-- On a valid buyer row, the scan computes exactly the buyer's rank of the
proposing seller, whatever value `curr_seller_rank` held before. -/
theorem rank_scan_eq_rank {n : Nat} {row : List Nat} (h : perm_row n row) {s : Nat}
    (hs : s < n) (r0 : Int) : rank_scan n row s r0 = (rank_of row s : Int) := by
  apply rank_scan_eq_of_unique row s (rank_of row s) n r0 (rank_of_lt h hs)
    (getD_rank_of h hs)
  intro j hj hmatch
  have := rank_of_getD h hj
  rw [hmatch] at this
  omega

/-! ## The generator produces permutation rows -/

/-- The `rand_j` draw stays in `[i, n)`: the C expression
`i + rand() / (RAND_MAX / (n-i) + 1)` cannot reach `n` when `rand() ≤ RAND_MAX`. -/
theorem rand_j_lt {RMAX rv n i : Nat} (hrv : rv ≤ RMAX) (hi : i < n - 1) :
    rand_j RMAX rv n i < n := by
  unfold rand_j
  have hk2 : 2 ≤ n - i := by omega
  have h0 : 0 < n - i := by omega
  have h1 : 0 < RMAX / (n - i) + 1 := Nat.succ_pos _
  have hq : RMAX < (RMAX / (n - i) + 1) * (n - i) := by
    exact (Nat.div_lt_iff_lt_mul h0).mp (Nat.lt_succ_self _)
  have hdivlt : RMAX / (RMAX / (n - i) + 1) < n - i := by
    exact (Nat.div_lt_iff_lt_mul h1).mpr (by rw [Nat.mul_comm] at hq; exact hq)
  have hle : rv / (RMAX / (n - i) + 1) ≤ RMAX / (RMAX / (n - i) + 1) :=
    Nat.div_le_div_right hrv
  omega

/-- Prepending the displaced element to a one-position update is a permutation:
`l[j] :: l.set j x ~ x :: l`. -/
theorem cons_set_perm {α : Type} [DecidableEq α] (d : α) :
    ∀ (l : List α) (x : α) (j : Nat), j < l.length → (l.getD j d :: l.set j x).Perm (x :: l) := by
  intro l
  induction l with
  | nil => intro x j hj; simp at hj
  | cons y t ih =>
    intro x j hj
    cases j with
    | zero => simpa using List.Perm.swap x y t
    | succ k =>
      have hk : k < t.length := by simpa using hj
      have h1 : (t.getD k d :: y :: t.set k x).Perm (y :: t.getD k d :: t.set k x) :=
        List.Perm.swap y (t.getD k d) (t.set k x)
      have h2 : (y :: t.getD k d :: t.set k x).Perm (y :: x :: t) :=
        List.Perm.cons y (ih x k hk)
      have h3 : (y :: x :: t).Perm (x :: y :: t) := List.Perm.swap x y t
      simpa using (h1.trans h2).trans h3

/-- The C swap body permutes the array when both indices are in bounds. -/
theorem swapAt_perm : ∀ (a : List Nat) (i j : Nat), i < a.length → j < a.length →
    (swapAt a i j).Perm a := by
  intro a
  induction a with
  | nil => intro i j hi; simp at hi
  | cons x l ih =>
    intro i j hi hj
    cases i with
    | zero =>
      cases j with
      | zero => simp [swapAt]
      | succ k =>
        have hk : k < l.length := by simpa using hj
        show ((((x :: l).set (k+1) ((x :: l).getD 0 0)).set 0 ((x :: l).getD (k+1) 0))).Perm _
        simp only [List.set_cons_succ, List.set_cons_zero, List.getD_cons_zero,
          List.getD_cons_succ]
        exact cons_set_perm 0 l x k hk
    | succ m =>
      cases j with
      | zero =>
        have hm : m < l.length := by simpa using hi
        show ((((x :: l).set 0 ((x :: l).getD (m+1) 0)).set (m+1) ((x :: l).getD 0 0))).Perm _
        simp only [List.set_cons_succ, List.set_cons_zero, List.getD_cons_zero,
          List.getD_cons_succ]
        exact cons_set_perm 0 l x m hm
      | succ k =>
        have hm : m < l.length := by simpa using hi
        have hk : k < l.length := by simpa using hj
        show ((((x :: l).set (k+1) ((x :: l).getD (m+1) 0)).set (m+1)
          ((x :: l).getD (k+1) 0))).Perm _
        simp only [List.set_cons_succ, List.set_cons_zero, List.getD_cons_zero,
          List.getD_cons_succ]
        exact List.Perm.cons x (ih m k hm hk)

/-- A `shuffle_array` call permutes its input (given the `rand()` bound). -/
theorem shuffle_array_perm {RMAX : Nat} {r : Nat → Nat} (hr : ∀ k, r k ≤ RMAX)
    (t0 : Nat) (a : List Nat) (n : Nat) (ha : a.length = n) :
    (shuffle_array RMAX r t0 a n).Perm a := by
  unfold shuffle_array
  have : ∀ (l : List Nat), (∀ i ∈ l, i < n - 1) → ∀ (b : List Nat), b.length = n →
      (l.foldl (fun acc i => swapAt acc i (rand_j RMAX (r (t0 + i)) n i)) b).Perm b := by
    intro l
    induction l with
    | nil => intro _ b _; simp
    | cons i t iht =>
      intro hmem b hb
      have hi : i < n - 1 := hmem i (by simp)
      have hib : i < b.length := by omega
      have hjb : rand_j RMAX (r (t0 + i)) n i < b.length := by
        rw [hb]; exact rand_j_lt (hr _) hi
      have hstep : (swapAt b i (rand_j RMAX (r (t0 + i)) n i)).Perm b := swapAt_perm b _ _ hib hjb
      have hlen : (swapAt b i (rand_j RMAX (r (t0 + i)) n i)).length = n := by
        rw [hstep.length_eq, hb]
      simpa using (iht (fun x hx => hmem x (by simp [hx])) _ hlen).trans hstep
  exact this (List.range (n - 1)) (fun i hi => List.mem_range.mp hi) a ha

/-- Every state of the shared working buffer is a permutation of `[0, n)`. -/
theorem randlist_after_perm {RMAX : Nat} {r : Nat → Nat} (hr : ∀ k, r k ≤ RMAX) (n : Nat) :
    ∀ k, (randlist_after RMAX r n k).Perm (List.range n) := by
  intro k
  induction k with
  | zero => exact List.Perm.refl _
  | succ m ih =>
    have hlen : (randlist_after RMAX r n m).length = n := by
      rw [ih.length_eq, List.length_range]
    exact (shuffle_array_perm hr _ _ n hlen).trans ih

theorem perm_row_of_perm_range {n : Nat} {row : List Nat} (h : row.Perm (List.range n)) :
    perm_row n row := by
  refine ⟨by rw [h.length_eq, List.length_range], h.nodup_iff.mpr (List.nodup_range n), ?_⟩
  intro x hx
  exact List.mem_range.mp (h.mem_iff.mp hx)

/-! ## Engine state accessors -/

/-- `seller_next_choices[s]`: the proposal cursor of seller `s`. -/
def cursor (st : GSState) (s : Nat) : Nat := st.seller_next_choices.getD s 0

/-- `seller_matches[s]`: the buyer matched to seller `s`, `-1` if unmatched. -/
def smatch (st : GSState) (s : Nat) : Int := st.seller_matches.getD s 0

/-- `buyer_matches[b]`: the seller matched to buyer `b`, `-1` if unmatched. -/
def bmatch (st : GSState) (b : Nat) : Int := st.buyer_matches.getD b 0

/-- `buyer_final_prefs[b]`: the recorded rank of buyer `b`'s accepted seller. -/
def bfinal (st : GSState) (b : Nat) : Int := st.buyer_final_prefs.getD b 0

/-- The number of sellers in `[0, n)` whose match entry is the `-1` sentinel. -/
def unmatched_count (st : GSState) (n : Nat) : Nat :=
  (List.range n).countP (fun s => smatch st s == -1)

/-- Sum of all proposal cursors: the total number of proposals made so far. -/
def cursor_sum (st : GSState) (n : Nat) : Nat :=
  Finset.sum (Finset.range n) (cursor st)

theorem valid_srow {n : Nat} {sp bp : List (List Nat)} (h : valid_prefs n sp bp)
    {s : Nat} (hs : s < n) : perm_row n (srow sp s) := by
  have hlen : s < sp.length := by rw [h.1]; exact hs
  rw [srow, List.getD_eq_getElem sp [] hlen]
  exact h.2.2.1 _ (List.getElem_mem hlen)

theorem valid_brow {n : Nat} {sp bp : List (List Nat)} (h : valid_prefs n sp bp)
    {b : Nat} (hb : b < n) : perm_row n (brow bp b) := by
  have hlen : b < bp.length := by rw [h.2.1]; exact hb
  rw [brow, List.getD_eq_getElem bp [] hlen]
  exact h.2.2.2 _ (List.getElem_mem hlen)

/-! ## The loop invariant

Everything the proposal loop maintains, from the data-model invariants of the
spec (mutually consistent match arrays, cursor bounds, recorded acceptance
ranks) to the two facts driving stability and seller-optimality: every buyer a
seller has already proposed to is matched at least as well (by that buyer's
ranking) as to the proposer, and no stable matching pairs a seller with a
buyer that has rejected it. -/

structure Inv (sp bp : List (List Nat)) (n : Nat) (st : GSState) : Prop where
  len_next : st.seller_next_choices.length = n
  len_final : st.buyer_final_prefs.length = n
  len_smatch : st.seller_matches.length = n
  len_bmatch : st.buyer_matches.length = n
  cursor_le : ∀ s, s < n → cursor st s ≤ n
  smatch_ok : ∀ s, s < n → smatch st s = -1 ∨
    ∃ b, b < n ∧ smatch st s = (b : Int) ∧ bmatch st b = (s : Int) ∧
      1 ≤ cursor st s ∧ (srow sp s).getD (cursor st s - 1) 0 = b
  bmatch_ok : ∀ b, b < n → bmatch st b = -1 ∨
    ∃ s, s < n ∧ bmatch st b = (s : Int) ∧ smatch st s = (b : Int) ∧
      bfinal st b = (rank_of (brow bp b) s : Int)
  proposed_ok : ∀ s, s < n → ∀ j, j < cursor st s →
    bmatch st ((srow sp s).getD j 0) ≠ -1 ∧
    rank_of (brow bp ((srow sp s).getD j 0)) (bmatch st ((srow sp s).getD j 0)).toNat ≤
      rank_of (brow bp ((srow sp s).getD j 0)) s
  count_ok : st.bachelor_count = (unmatched_count st n : Int)
  rej_ok : ∀ M, is_stable_matching n sp bp M → ∀ s, s < n → ∀ j, j < cursor st s →
    bmatch st ((srow sp s).getD j 0) ≠ (s : Int) → M.getD s 0 ≠ (srow sp s).getD j 0

/-! ## Counting helpers -/

theorem countP_flip_false {l : List Nat} (hl : l.Nodup) {c : Nat} (hc : c ∈ l)
    (p q : Nat → Bool) (hpq : ∀ x ∈ l, x ≠ c → p x = q x)
    (hp : p c = true) (hq : q c = false) :
    l.countP p = l.countP q + 1 := by
  have hperm := List.perm_cons_erase hc
  rw [hperm.countP_eq p, hperm.countP_eq q, List.countP_cons, List.countP_cons, hp, hq]
  have heq : (l.erase c).countP p = (l.erase c).countP q := by
    apply List.countP_congr
    intro x hx
    have hxl : x ∈ l := List.mem_of_mem_erase hx
    have hxc : x ≠ c := by
      intro he; subst he; exact hl.not_mem_erase hx
    rw [hpq x hxl hxc]
  simp [heq]

theorem countP_flip_swap {l : List Nat} (hl : l.Nodup) {c d : Nat} (hc : c ∈ l) (hd : d ∈ l)
    (hcd : c ≠ d) (p q : Nat → Bool) (hpq : ∀ x ∈ l, x ≠ c → x ≠ d → p x = q x)
    (hpc : p c = true) (hqc : q c = false) (hpd : p d = false) (hqd : q d = true) :
    l.countP p = l.countP q := by
  have hperm1 := List.perm_cons_erase hc
  have hd' : d ∈ l.erase c := (List.mem_erase_of_ne (Ne.symm hcd)).mpr hd
  have hperm2 := List.perm_cons_erase hd'
  have hperm : l.Perm (c :: d :: (l.erase c).erase d) :=
    hperm1.trans (List.Perm.cons c hperm2)
  rw [hperm.countP_eq p, hperm.countP_eq q]
  simp only [List.countP_cons, hpc, hqc, hpd, hqd]
  have hnd : (l.erase c).Nodup := List.Nodup.erase c hl
  have heq : (((l.erase c).erase d).countP p) = (((l.erase c).erase d).countP q) := by
    apply List.countP_congr
    intro x hx
    have hx1 : x ∈ l.erase c := List.mem_of_mem_erase hx
    have hxl : x ∈ l := List.mem_of_mem_erase hx1
    have hxd : x ≠ d := by intro he; subst he; exact hnd.not_mem_erase hx
    have hxc : x ≠ c := by intro he; subst he; exact hl.not_mem_erase hx1
    rw [hpq x hxl hxc hxd]
  simp [heq]

theorem unmatched_count_pos {st : GSState} {n : Nat}
    (h : 0 < unmatched_count st n) : ∃ s, s < n ∧ smatch st s = -1 := by
  rw [unmatched_count] at h
  rcases List.countP_pos_iff.mp h with ⟨s, hs, hmatch⟩
  exact ⟨s, List.mem_range.mp hs, by simpa using hmatch⟩

theorem unmatched_count_eq_zero {st : GSState} {n : Nat}
    (h : unmatched_count st n = 0) : ∀ s, s < n → smatch st s ≠ -1 := by
  intro s hs hmatch
  rw [unmatched_count, List.countP_eq_zero] at h
  exact absurd (by simpa using hmatch) (h s (List.mem_range.mpr hs))

/-! ## An unmatched seller has not exhausted its list (pigeonhole) -/

theorem cursor_lt_of_unmatched {n : Nat} {sp bp : List (List Nat)} {st : GSState}
    (hv : valid_prefs n sp bp) (hinv : Inv sp bp n st) {s : Nat} (hs : s < n)
    (hun : smatch st s = -1) : cursor st s < n := by
  by_contra hge
  have hcur : cursor st s = n := le_antisymm (hinv.cursor_le s hs) (by omega)
  have hrow := valid_srow hv hs
  -- every buyer has been proposed to by s, hence is matched
  have hbm : ∀ b, b < n → bmatch st b ≠ -1 := by
    intro b hb
    have hmem : b ∈ srow sp s := perm_row_mem hrow hb
    have hidx : rank_of (srow sp s) b < n := rank_of_lt hrow hb
    have hget : (srow sp s).getD (rank_of (srow sp s) b) 0 = b := getD_rank_of hrow hb
    have := (hinv.proposed_ok s hs (rank_of (srow sp s) b) (by omega)).1
    rwa [hget] at this
  -- so every buyer is matched to a distinct seller; the image covers all sellers
  have hinj : Set.InjOn (fun b => (bmatch st b).toNat) (Finset.range n) := by
    intro b1 hb1 b2 hb2 heq
    simp only [Finset.coe_sort_coe, Finset.mem_coe, Finset.mem_range] at hb1 hb2
    rcases hinv.bmatch_ok b1 hb1 with h1 | ⟨s1, hs1, hbm1, hsm1, _⟩
    · exact absurd h1 (hbm b1 hb1)
    rcases hinv.bmatch_ok b2 hb2 with h2 | ⟨s2, hs2, hbm2, hsm2, _⟩
    · exact absurd h2 (hbm b2 hb2)
    have he1 : (bmatch st b1).toNat = s1 := by rw [hbm1]; exact Int.toNat_natCast s1
    have he2 : (bmatch st b2).toNat = s2 := by rw [hbm2]; exact Int.toNat_natCast s2
    simp only at heq
    rw [he1, he2] at heq
    subst heq
    rw [hsm1] at hsm2
    exact Nat.cast_injective hsm2
  have hsub : (Finset.range n).image (fun b => (bmatch st b).toNat) ⊆ Finset.range n := by
    intro x hx
    rcases Finset.mem_image.mp hx with ⟨b, hb, hbx⟩
    have hb' : b < n := Finset.mem_range.mp hb
    rcases hinv.bmatch_ok b hb' with h1 | ⟨s1, hs1, hbm1, _, _⟩
    · exact absurd h1 (hbm b hb')
    rw [← hbx, hbm1, Int.toNat_natCast]
    exact Finset.mem_range.mpr hs1
  have hcardle : (Finset.range n).card ≤
      ((Finset.range n).image (fun b => (bmatch st b).toNat)).card := by
    rw [Finset.card_image_of_injOn hinj]
  have heqset := Finset.eq_of_subset_of_card_le hsub hcardle
  have hsmem : s ∈ (Finset.range n).image (fun b => (bmatch st b).toNat) := by
    rw [heqset]; exact Finset.mem_range.mpr hs
  rcases Finset.mem_image.mp hsmem with ⟨b, hb, hbs⟩
  have hb' : b < n := Finset.mem_range.mp hb
  rcases hinv.bmatch_ok b hb' with h1 | ⟨s1, hs1, hbm1, hsm1, _⟩
  · exact absurd h1 (hbm b hb')
  have : s1 = s := by rw [hbm1, Int.toNat_natCast] at hbs; exact hbs
  subst this
  rw [hun] at hsm1
  exact absurd hsm1.symm (by simp)

/-! ## Branch equations for one loop-body iteration -/

theorem propose_matched {sp bp : List (List Nat)} {n : Nat} {st : GSState} {cs : Nat}
    (h : smatch st cs ≠ -1) : propose sp bp n st cs = st := by
  unfold propose
  exact if_neg h

theorem propose_accept {sp bp : List (List Nat)} {n : Nat} {st : GSState} {cs b : Nat}
    {rk : Int}
    (hun : smatch st cs = -1)
    (hb : b = (srow sp cs).getD (cursor st cs) 0)
    (hrk : rk = rank_scan n (brow bp b) cs st.curr_seller_rank)
    (hfree : bmatch st b = -1) :
    propose sp bp n st cs = { st with
      seller_next_choices := st.seller_next_choices.set cs (cursor st cs + 1)
      buyer_final_prefs := st.buyer_final_prefs.set b rk
      buyer_matches := st.buyer_matches.set b (cs : Int)
      seller_matches := st.seller_matches.set cs (b : Int)
      bachelor_count := st.bachelor_count - 1
      curr_seller_rank := rk } := by
  subst hb; subst hrk
  unfold smatch at hun
  unfold bmatch srow cursor at hfree
  unfold propose
  rw [if_pos hun]
  dsimp only
  rw [if_pos hfree]
  rfl

theorem propose_switch {sp bp : List (List Nat)} {n : Nat} {st : GSState} {cs b : Nat}
    {os rk : Int}
    (hun : smatch st cs = -1)
    (hb : b = (srow sp cs).getD (cursor st cs) 0)
    (hrk : rk = rank_scan n (brow bp b) cs st.curr_seller_rank)
    (hos : os = bmatch st b)
    (hocc : os ≠ -1)
    (hlt : rk < bfinal st b) :
    propose sp bp n st cs = { st with
      seller_next_choices := st.seller_next_choices.set cs (cursor st cs + 1)
      buyer_final_prefs := st.buyer_final_prefs.set b rk
      buyer_matches := st.buyer_matches.set b (cs : Int)
      seller_matches := (st.seller_matches.set cs (b : Int)).set os.toNat (-1)
      curr_seller_rank := rk } := by
  subst hb; subst hrk; subst hos
  unfold smatch at hun
  unfold bmatch srow cursor at hocc
  unfold bfinal brow srow cursor at hlt
  unfold propose
  rw [if_pos hun]
  dsimp only
  rw [if_neg hocc, if_pos hlt]
  rfl

theorem propose_reject {sp bp : List (List Nat)} {n : Nat} {st : GSState} {cs b : Nat}
    {rk : Int}
    (hun : smatch st cs = -1)
    (hb : b = (srow sp cs).getD (cursor st cs) 0)
    (hrk : rk = rank_scan n (brow bp b) cs st.curr_seller_rank)
    (hocc : bmatch st b ≠ -1)
    (hge : ¬ rk < bfinal st b) :
    propose sp bp n st cs = { st with
      seller_next_choices := st.seller_next_choices.set cs (cursor st cs + 1)
      curr_seller_rank := rk } := by
  subst hb; subst hrk
  unfold smatch at hun
  unfold bmatch srow cursor at hocc
  unfold bfinal brow srow cursor at hge
  unfold propose
  rw [if_pos hun]
  dsimp only
  rw [if_neg hocc, if_neg hge]
  rfl

/-! ## Invariant preservation: the accept branch -/

theorem cast_ne_neg_one (s : Nat) : (s : Int) ≠ -1 := by omega

theorem cast_toNat (s : Nat) : ((s : Int)).toNat = s := Int.toNat_natCast s

theorem inv_accept_core {n : Nat} {sp bp : List (List Nat)} {st : GSState} {cs b : Nat}
    {rk : Int}
    (hv : valid_prefs n sp bp) (hinv : Inv sp bp n st) (hcs : cs < n)
    (hun : smatch st cs = -1) (hK : cursor st cs < n)
    (hbdef : b = (srow sp cs).getD (cursor st cs) 0)
    (hrkdef : rk = (rank_of (brow bp b) cs : Int))
    (hfree : bmatch st b = -1) :
    Inv sp bp n { st with
      seller_next_choices := st.seller_next_choices.set cs (cursor st cs + 1)
      buyer_final_prefs := st.buyer_final_prefs.set b rk
      buyer_matches := st.buyer_matches.set b (cs : Int)
      seller_matches := st.seller_matches.set cs (b : Int)
      bachelor_count := st.bachelor_count - 1
      curr_seller_rank := rk } := by
  have hrowcs := valid_srow hv hcs
  have hb : b < n := hbdef ▸ getD_row_lt hrowcs hK
  set K := cursor st cs with hKdef
  have hlnext : cs < st.seller_next_choices.length := by rw [hinv.len_next]; exact hcs
  have hlsm : cs < st.seller_matches.length := by rw [hinv.len_smatch]; exact hcs
  have hlbm : b < st.buyer_matches.length := by rw [hinv.len_bmatch]; exact hb
  have hlbf : b < st.buyer_final_prefs.length := by rw [hinv.len_final]; exact hb
  -- accessor evaluations on the new state
  have hcur_self : (st.seller_next_choices.set cs (K + 1)).getD cs 0 =
      K + 1 := getD_set_self _ _ _ _ hlnext
  have hcur_ne : ∀ x, x ≠ cs → (st.seller_next_choices.set cs (K + 1)).getD x 0 =
      cursor st x := fun x hx => getD_set_ne _ (fun h => hx h.symm) _ _
  have hsm_self : (st.seller_matches.set cs (b : Int)).getD cs 0 = (b : Int) :=
    getD_set_self _ _ _ _ hlsm
  have hsm_ne : ∀ x, x ≠ cs → (st.seller_matches.set cs (b : Int)).getD x 0 =
      smatch st x := fun x hx => getD_set_ne _ (fun h => hx h.symm) _ _
  have hbm_self : (st.buyer_matches.set b (cs : Int)).getD b 0 = (cs : Int) :=
    getD_set_self _ _ _ _ hlbm
  have hbm_ne : ∀ x, x ≠ b → (st.buyer_matches.set b (cs : Int)).getD x 0 =
      bmatch st x := fun x hx => getD_set_ne _ (fun h => hx h.symm) _ _
  have hbf_self : (st.buyer_final_prefs.set b rk).getD b 0 = rk :=
    getD_set_self _ _ _ _ hlbf
  have hbf_ne : ∀ x, x ≠ b → (st.buyer_final_prefs.set b rk).getD x 0 =
      bfinal st x := fun x hx => getD_set_ne _ (fun h => hx h.symm) _ _
  -- a matched seller's partner cannot be b (which is free)
  have hpartner_ne_b : ∀ (s' b' : Nat), s' < n → smatch st s' = (b' : Int) → b' < n → b' ≠ b := by
    intro s' b' hs' hsb' hb' hbb
    rw [hbb] at hsb'
    rcases hinv.smatch_ok s' hs' with h2 | ⟨b2, hb2, hsb2', hbs2', _, _⟩
    · rw [hsb'] at h2; exact cast_ne_neg_one b h2
    · have hb2b : b2 = b := by
        rw [hsb'] at hsb2'
        exact_mod_cast hsb2'.symm
      rw [hb2b, hfree] at hbs2'
      exact cast_ne_neg_one s' hbs2'.symm
  constructor
  · simpa using hinv.len_next
  · simpa using hinv.len_final
  · simpa using hinv.len_smatch
  · simpa using hinv.len_bmatch
  -- cursor_le
  · intro s hs
    simp only [cursor]
    by_cases hx : s = cs
    · subst hx; rw [hcur_self]; omega
    · rw [hcur_ne s hx]; exact hinv.cursor_le s hs
  -- smatch_ok
  · intro s hs
    simp only [smatch, bmatch, cursor]
    by_cases hx : s = cs
    · subst hx
      right
      refine ⟨b, hb, hsm_self, hbm_self, ?_, ?_⟩
      · rw [hcur_self]; omega
      · rw [hcur_self]; simpa using hbdef.symm
    · rw [hsm_ne s hx, hcur_ne s hx]
      rcases hinv.smatch_ok s hs with h1 | ⟨b', hb', hsb', hbs', hc1, hcrow⟩
      · exact Or.inl h1
      · right
        have hb'b : b' ≠ b := hpartner_ne_b s b' hs hsb' hb'
        exact ⟨b', hb', hsb', by rw [hbm_ne b' hb'b]; exact hbs', hc1, hcrow⟩
  -- bmatch_ok
  · intro b'' hb''
    simp only [smatch, bmatch, bfinal]
    by_cases hx : b'' = b
    · subst hx
      right
      exact ⟨cs, hcs, hbm_self, hsm_self, by rw [hbf_self]; exact hrkdef⟩
    · rw [hbm_ne b'' hx, hbf_ne b'' hx]
      rcases hinv.bmatch_ok b'' hb'' with h1 | ⟨s', hs', hbs', hsb', hbf'⟩
      · exact Or.inl h1
      · right
        have hscs : s' ≠ cs := by
          intro he; subst he
          rw [hun] at hsb'
          exact cast_ne_neg_one b'' hsb'.symm
        exact ⟨s', hs', hbs', by rw [hsm_ne s' hscs]; exact hsb', hbf'⟩
  -- proposed_ok
  · intro s hs j hj
    simp only [cursor, smatch, bmatch] at hj ⊢
    by_cases hx : s = cs
    · subst hx
      rw [hcur_self] at hj
      by_cases hjK : j = K
      · subst hjK
        rw [← hbdef, hbm_self]
        refine ⟨cast_ne_neg_one _, ?_⟩
        rw [cast_toNat]
      · have hjlt : j < K := by omega
        have htne : (srow sp s).getD j 0 ≠ b := by
          rw [hbdef]
          exact getD_row_ne hrowcs (by omega) hK hjK
        rw [hbm_ne _ htne]
        exact hinv.proposed_ok s hs j hjlt
    · rw [hcur_ne s hx] at hj
      have hold := hinv.proposed_ok s hs j hj
      have htne : (srow sp s).getD j 0 ≠ b := by
        intro he
        rw [he, hfree] at hold
        exact hold.1 rfl
      rw [hbm_ne _ htne]
      exact hold
  -- count_ok
  · have hflip := countP_flip_false (List.nodup_range n) (List.mem_range.mpr hcs)
      (fun s => smatch st s == -1)
      (fun s => ((st.seller_matches.set cs (b : Int)).getD s 0) == -1)
      (by
        intro x _ hx
        show (smatch st x == -1) = ((st.seller_matches.set cs (b : Int)).getD x 0 == -1)
        rw [hsm_ne x hx])
      (by
        show (smatch st cs == -1) = true
        simp [hun])
      (by
        show ((st.seller_matches.set cs (b : Int)).getD cs 0 == -1) = false
        rw [hsm_self, beq_eq_false_iff_ne]
        exact cast_ne_neg_one b)
    show st.bachelor_count - 1 =
      (((List.range n).countP
        (fun s => ((st.seller_matches.set cs (b : Int)).getD s 0) == -1)) : Int)
    rw [hinv.count_ok]
    have hcnt : unmatched_count st n = (List.range n).countP (fun s => smatch st s == -1) := rfl
    rw [hcnt, hflip]
    push_cast
    ring
  -- rej_ok
  · intro M hM s hs j hj hne
    simp only [cursor, smatch, bmatch] at hj hne ⊢
    by_cases hx : s = cs
    · subst hx
      rw [hcur_self] at hj
      by_cases hjK : j = K
      · subst hjK
        rw [← hbdef, hbm_self] at hne
        exact absurd rfl hne
      · have hjlt : j < K := by omega
        have htne : (srow sp s).getD j 0 ≠ b := by
          rw [hbdef]
          exact getD_row_ne hrowcs (by omega) hK hjK
        rw [hbm_ne _ htne] at hne
        exact hinv.rej_ok M hM s hs j hjlt hne
    · rw [hcur_ne s hx] at hj
      have hold := hinv.proposed_ok s hs j hj
      have htne : (srow sp s).getD j 0 ≠ b := by
        intro he
        rw [he, hfree] at hold
        exact hold.1 rfl
      rw [hbm_ne _ htne] at hne
      exact hinv.rej_ok M hM s hs j hj hne

/-! ## Invariant preservation: the switch branch -/

theorem inv_switch_core {n : Nat} {sp bp : List (List Nat)} {st : GSState} {cs b os : Nat}
    {rk : Int}
    (hv : valid_prefs n sp bp) (hinv : Inv sp bp n st) (hcs : cs < n)
    (hun : smatch st cs = -1) (hK : cursor st cs < n)
    (hbdef : b = (srow sp cs).getD (cursor st cs) 0)
    (hrkdef : rk = (rank_of (brow bp b) cs : Int))
    (hosdef : bmatch st b = (os : Int)) (hoslt : os < n)
    (hlt : rank_of (brow bp b) cs < rank_of (brow bp b) os) :
    Inv sp bp n { st with
      seller_next_choices := st.seller_next_choices.set cs (cursor st cs + 1)
      buyer_final_prefs := st.buyer_final_prefs.set b rk
      buyer_matches := st.buyer_matches.set b (cs : Int)
      seller_matches := (st.seller_matches.set cs (b : Int)).set os (-1)
      curr_seller_rank := rk } := by
  have hrowcs := valid_srow hv hcs
  have hrowb : perm_row n (brow bp b) :=
    valid_brow hv (hbdef ▸ getD_row_lt hrowcs hK)
  have hb : b < n := hbdef ▸ getD_row_lt hrowcs hK
  set K := cursor st cs with hKdef
  -- the incumbent: matched to b, with its cursor pointing just past b
  have hsm_os : smatch st os = (b : Int) := by
    rcases hinv.bmatch_ok b hb with h1 | ⟨s2, hs2, hbs2, hsb2, _⟩
    · rw [hosdef] at h1; exact absurd h1 (cast_ne_neg_one os)
    · have : s2 = os := by
        rw [hosdef] at hbs2
        exact_mod_cast hbs2.symm
      rw [← this]; exact hsb2
  have hoscs : os ≠ cs := by
    intro he
    rw [he, hun] at hsm_os
    exact cast_ne_neg_one b hsm_os.symm
  have hlnext : cs < st.seller_next_choices.length := by rw [hinv.len_next]; exact hcs
  have hlsm : cs < st.seller_matches.length := by rw [hinv.len_smatch]; exact hcs
  have hlsm_os : os < (st.seller_matches.set cs (b : Int)).length := by
    rw [List.length_set, hinv.len_smatch]; exact hoslt
  have hlbm : b < st.buyer_matches.length := by rw [hinv.len_bmatch]; exact hb
  have hlbf : b < st.buyer_final_prefs.length := by rw [hinv.len_final]; exact hb
  -- accessor evaluations on the new state
  have hcur_self : (st.seller_next_choices.set cs (K + 1)).getD cs 0 = K + 1 :=
    getD_set_self _ _ _ _ hlnext
  have hcur_ne : ∀ x, x ≠ cs → (st.seller_next_choices.set cs (K + 1)).getD x 0 =
      cursor st x := fun x hx => getD_set_ne _ (fun h => hx h.symm) _ _
  have hsm_self_os : ((st.seller_matches.set cs (b : Int)).set os (-1)).getD os 0 = -1 :=
    getD_set_self _ _ _ _ hlsm_os
  have hsm_self_cs : ((st.seller_matches.set cs (b : Int)).set os (-1)).getD cs 0 = (b : Int) := by
    rw [getD_set_ne _ hoscs, getD_set_self _ _ _ _ hlsm]
  have hsm_ne : ∀ x, x ≠ cs → x ≠ os →
      ((st.seller_matches.set cs (b : Int)).set os (-1)).getD x 0 = smatch st x := by
    intro x hxcs hxos
    rw [getD_set_ne _ (fun h => hxos h.symm), getD_set_ne _ (fun h => hxcs h.symm)]
    rfl
  have hbm_self : (st.buyer_matches.set b (cs : Int)).getD b 0 = (cs : Int) :=
    getD_set_self _ _ _ _ hlbm
  have hbm_ne : ∀ x, x ≠ b → (st.buyer_matches.set b (cs : Int)).getD x 0 =
      bmatch st x := fun x hx => getD_set_ne _ (fun h => hx h.symm) _ _
  have hbf_self : (st.buyer_final_prefs.set b rk).getD b 0 = rk :=
    getD_set_self _ _ _ _ hlbf
  have hbf_ne : ∀ x, x ≠ b → (st.buyer_final_prefs.set b rk).getD x 0 =
      bfinal st x := fun x hx => getD_set_ne _ (fun h => hx h.symm) _ _
  -- a seller other than the incumbent, if matched, is not matched to b
  have hpartner_ne_b : ∀ (s' b' : Nat), s' < n → s' ≠ os → smatch st s' = (b' : Int) →
      b' ≠ b := by
    intro s' b' hs' hsos hsb' hbb
    rw [hbb] at hsb'
    rcases hinv.smatch_ok s' hs' with h2 | ⟨b2, hb2, hsb2', hbs2', _, _⟩
    · rw [hsb'] at h2; exact cast_ne_neg_one b h2
    · have hb2b : b2 = b := by
        rw [hsb'] at hsb2'
        exact_mod_cast hsb2'.symm
      rw [hb2b, hosdef] at hbs2'
      have hos_eq : os = s' := by exact_mod_cast hbs2'
      exact hsos hos_eq.symm
  constructor
  · simpa using hinv.len_next
  · simpa using hinv.len_final
  · simpa using hinv.len_smatch
  · simpa using hinv.len_bmatch
  -- cursor_le
  · intro s hs
    simp only [cursor]
    by_cases hx : s = cs
    · subst hx; rw [hcur_self]; omega
    · rw [hcur_ne s hx]; exact hinv.cursor_le s hs
  -- smatch_ok
  · intro s hs
    simp only [smatch, bmatch, cursor]
    by_cases hxos : s = os
    · subst hxos
      exact Or.inl hsm_self_os
    · by_cases hx : s = cs
      · subst hx
        right
        refine ⟨b, hb, hsm_self_cs, hbm_self, ?_, ?_⟩
        · rw [hcur_self]; omega
        · rw [hcur_self]; simpa using hbdef.symm
      · rw [hsm_ne s hx hxos, hcur_ne s hx]
        rcases hinv.smatch_ok s hs with h1 | ⟨b', hb', hsb', hbs', hc1, hcrow⟩
        · exact Or.inl h1
        · right
          have hb'b : b' ≠ b := hpartner_ne_b s b' hs hxos hsb'
          exact ⟨b', hb', hsb', by rw [hbm_ne b' hb'b]; exact hbs', hc1, hcrow⟩
  -- bmatch_ok
  · intro b'' hb''
    simp only [smatch, bmatch, bfinal]
    by_cases hxb : b'' = b
    · subst hxb
      right
      exact ⟨cs, hcs, hbm_self, hsm_self_cs, by rw [hbf_self]; exact hrkdef⟩
    · rw [hbm_ne b'' hxb, hbf_ne b'' hxb]
      rcases hinv.bmatch_ok b'' hb'' with h1 | ⟨s', hs', hbs', hsb', hbf'⟩
      · exact Or.inl h1
      · right
        have hscs : s' ≠ cs := by
          intro he; subst he; rw [hun] at hsb'; exact cast_ne_neg_one b'' hsb'.symm
        have hsos' : s' ≠ os := by
          intro he; subst he
          rw [hsm_os] at hsb'
          have hbb : b = b'' := by exact_mod_cast hsb'
          exact hxb hbb.symm
        exact ⟨s', hs', hbs', by rw [hsm_ne s' hscs hsos']; exact hsb', hbf'⟩
  -- proposed_ok
  · intro s hs j hj
    simp only [cursor, smatch, bmatch] at hj ⊢
    by_cases hx : s = cs
    · subst hx
      rw [hcur_self] at hj
      by_cases hjK : j = K
      · subst hjK
        rw [← hbdef, hbm_self]
        refine ⟨cast_ne_neg_one _, ?_⟩
        rw [cast_toNat]
      · have hjlt : j < K := by omega
        have htne : (srow sp s).getD j 0 ≠ b := by
          rw [hbdef]
          exact getD_row_ne hrowcs (by omega) hK hjK
        rw [hbm_ne _ htne]
        exact hinv.proposed_ok s hs j hjlt
    · rw [hcur_ne s hx] at hj
      have hold := hinv.proposed_ok s hs j hj
      by_cases htb : (srow sp s).getD j 0 = b
      · have h2 := hold.2
        rw [htb, hosdef, cast_toNat] at h2
        rw [htb, hbm_self]
        refine ⟨cast_ne_neg_one _, ?_⟩
        rw [cast_toNat]
        omega
      · rw [hbm_ne _ htb]
        exact hold
  -- count_ok
  · have hflip := countP_flip_swap (List.nodup_range n) (List.mem_range.mpr hcs)
      (List.mem_range.mpr hoslt) (fun h => hoscs h.symm)
      (fun s => smatch st s == -1)
      (fun s => ((((st.seller_matches.set cs (b : Int)).set os (-1)).getD s 0) == -1))
      (by
        intro x _ hxcs hxos
        show (smatch st x == -1) =
          ((((st.seller_matches.set cs (b : Int)).set os (-1)).getD x 0) == -1)
        rw [hsm_ne x hxcs hxos])
      (by
        show (smatch st cs == -1) = true
        simp [hun])
      (by
        show ((((st.seller_matches.set cs (b : Int)).set os (-1)).getD cs 0) == -1) = false
        rw [hsm_self_cs, beq_eq_false_iff_ne]
        exact cast_ne_neg_one b)
      (by
        show (smatch st os == -1) = false
        rw [hsm_os, beq_eq_false_iff_ne]
        exact cast_ne_neg_one b)
      (by
        show ((((st.seller_matches.set cs (b : Int)).set os (-1)).getD os 0) == -1) = true
        rw [hsm_self_os]
        simp)
    show st.bachelor_count =
      (((List.range n).countP
        (fun s => ((((st.seller_matches.set cs (b : Int)).set os (-1)).getD s 0) == -1))) : Int)
    rw [hinv.count_ok]
    have hcnt : unmatched_count st n = (List.range n).countP (fun s => smatch st s == -1) := rfl
    rw [hcnt, hflip]
  -- rej_ok
  · intro M hM s hs j hj hne
    simp only [cursor, smatch, bmatch] at hj hne ⊢
    have hMrow : perm_row n M := ⟨hM.1, hM.2.1, hM.2.2.1⟩
    by_cases hx : s = cs
    · subst hx
      rw [hcur_self] at hj
      by_cases hjK : j = K
      · subst hjK
        rw [← hbdef, hbm_self] at hne
        exact absurd rfl hne
      · have hjlt : j < K := by omega
        have htne : (srow sp s).getD j 0 ≠ b := by
          rw [hbdef]
          exact getD_row_ne hrowcs (by omega) hK hjK
        rw [hbm_ne _ htne] at hne
        exact hinv.rej_ok M hM s hs j hjlt hne
    · rw [hcur_ne s hx] at hj
      by_cases htb : (srow sp s).getD j 0 = b
      · by_cases hsos : s = os
        · -- the newly created rejection: buyer b drops the incumbent for cs;
          -- no stable matching can pair the incumbent with b, else (cs, b) blocks it
          subst hsos
          rw [htb]
          intro hMs
          have hMcs_ne : M.getD cs 0 ≠ b := by
            intro he
            have h1 := rank_of_getD hMrow hcs
            have h2 := rank_of_getD hMrow hs
            rw [he] at h1
            rw [hMs] at h2
            rw [h1] at h2
            exact hx h2.symm
          have hMcs_lt : M.getD cs 0 < n := getD_row_lt hMrow hcs
          have hside_cs : rank_of (srow sp cs) b < rank_of (srow sp cs) (M.getD cs 0) := by
            have hrkb : rank_of (srow sp cs) b = K := by
              rw [hbdef]; exact rank_of_getD hrowcs hK
            rcases Nat.lt_trichotomy (rank_of (srow sp cs) (M.getD cs 0)) K with hc | hc | hc
            · exfalso
              have hget : (srow sp cs).getD (rank_of (srow sp cs) (M.getD cs 0)) 0 =
                  M.getD cs 0 := getD_rank_of hrowcs hMcs_lt
              have hnotmine : bmatch st
                  ((srow sp cs).getD (rank_of (srow sp cs) (M.getD cs 0)) 0) ≠ (cs : Int) := by
                rw [hget]
                intro habs
                rcases hinv.bmatch_ok (M.getD cs 0) hMcs_lt with hh | ⟨s2, hs2, hbs2, hsb2, _⟩
                · rw [habs] at hh; exact cast_ne_neg_one cs hh
                · have hscs2 : s2 = cs := by rw [habs] at hbs2; exact_mod_cast hbs2.symm
                  rw [hscs2, hun] at hsb2
                  exact cast_ne_neg_one (M.getD cs 0) hsb2.symm
              have hrej := hinv.rej_ok M hM cs hcs
                (rank_of (srow sp cs) (M.getD cs 0)) hc hnotmine
              exact hrej hget.symm
            · exfalso
              have hget : (srow sp cs).getD K 0 = M.getD cs 0 := by
                rw [← hc]; exact getD_rank_of hrowcs hMcs_lt
              exact hMcs_ne (hbdef.trans hget).symm
            · rw [hrkb]; exact hc
          have hMidx : M.indexOf b = s := by
            have h2 := rank_of_getD hMrow hs
            rw [hMs] at h2
            exact h2
          have hside_b : rank_of (brow bp b) cs < rank_of (brow bp b) (M.indexOf b) := by
            rw [hMidx]
            exact hlt
          exact hM.2.2.2 cs hcs b hb hMcs_ne ⟨hside_cs, hside_b⟩
        · -- b had already rejected s before this proposal
          rw [htb]
          have hold_ne : bmatch st ((srow sp s).getD j 0) ≠ (s : Int) := by
            rw [htb, hosdef]
            intro habs
            have hsoseq : s = os := by exact_mod_cast habs.symm
            exact hsos hsoseq
          have hrej := hinv.rej_ok M hM s hs j hj hold_ne
          rw [htb] at hrej
          exact hrej
      · rw [hbm_ne _ htb] at hne
        exact hinv.rej_ok M hM s hs j hj hne

/-! ## Invariant preservation: the reject branch -/

theorem inv_reject_core {n : Nat} {sp bp : List (List Nat)} {st : GSState} {cs b os : Nat}
    {rk : Int}
    (hv : valid_prefs n sp bp) (hinv : Inv sp bp n st) (hcs : cs < n)
    (hun : smatch st cs = -1) (hK : cursor st cs < n)
    (hbdef : b = (srow sp cs).getD (cursor st cs) 0)
    (hosdef : bmatch st b = (os : Int)) (hoslt : os < n)
    (hge : rank_of (brow bp b) os ≤ rank_of (brow bp b) cs) :
    Inv sp bp n { st with
      seller_next_choices := st.seller_next_choices.set cs (cursor st cs + 1)
      curr_seller_rank := rk } := by
  have hrowcs := valid_srow hv hcs
  have hb : b < n := hbdef ▸ getD_row_lt hrowcs hK
  have hrowb : perm_row n (brow bp b) := valid_brow hv hb
  -- the incumbent is matched to b
  have hsm_os : smatch st os = (b : Int) := by
    rcases hinv.bmatch_ok b hb with h1 | ⟨s2, hs2, hbs2, hsb2, _⟩
    · rw [hosdef] at h1; exact absurd h1 (cast_ne_neg_one os)
    · have : s2 = os := by
        rw [hosdef] at hbs2
        exact_mod_cast hbs2.symm
      rw [← this]; exact hsb2
  have hoscs : os ≠ cs := by
    intro he
    rw [he, hun] at hsm_os
    exact cast_ne_neg_one b hsm_os.symm
  have hstrict : rank_of (brow bp b) os < rank_of (brow bp b) cs := by
    rcases Nat.lt_or_ge (rank_of (brow bp b) os) (rank_of (brow bp b) cs) with h | h
    · exact h
    · exact absurd (rank_of_inj hrowb hoslt hcs (le_antisymm hge h)) hoscs
  set K := cursor st cs with hKdef
  have hlnext : cs < st.seller_next_choices.length := by rw [hinv.len_next]; exact hcs
  have hcur_self : (st.seller_next_choices.set cs (K + 1)).getD cs 0 = K + 1 :=
    getD_set_self _ _ _ _ hlnext
  have hcur_ne : ∀ x, x ≠ cs → (st.seller_next_choices.set cs (K + 1)).getD x 0 =
      cursor st x := fun x hx => getD_set_ne _ (fun h => hx h.symm) _ _
  constructor
  · simpa using hinv.len_next
  · exact hinv.len_final
  · exact hinv.len_smatch
  · exact hinv.len_bmatch
  -- cursor_le
  · intro s hs
    simp only [cursor]
    by_cases hx : s = cs
    · subst hx; rw [hcur_self]; omega
    · rw [hcur_ne s hx]; exact hinv.cursor_le s hs
  -- smatch_ok
  · intro s hs
    simp only [smatch, bmatch, cursor]
    by_cases hx : s = cs
    · subst hx
      exact Or.inl hun
    · rw [hcur_ne s hx]
      exact hinv.smatch_ok s hs
  -- bmatch_ok
  · exact hinv.bmatch_ok
  -- proposed_ok
  · intro s hs j hj
    simp only [cursor, smatch, bmatch] at hj ⊢
    by_cases hx : s = cs
    · subst hx
      rw [hcur_self] at hj
      by_cases hjK : j = K
      · subst hjK
        rw [← hbdef]
        have hosraw : st.buyer_matches.getD b 0 = (os : Int) := hosdef
        rw [hosraw]
        refine ⟨cast_ne_neg_one _, ?_⟩
        rw [cast_toNat]
        exact hge
      · exact hinv.proposed_ok s hs j (by omega)
    · rw [hcur_ne s hx] at hj
      exact hinv.proposed_ok s hs j hj
  -- count_ok
  · exact hinv.count_ok
  -- rej_ok
  · intro M hM s hs j hj hne
    simp only [cursor, smatch, bmatch] at hj hne ⊢
    have hMrow : perm_row n M := ⟨hM.1, hM.2.1, hM.2.2.1⟩
    by_cases hx : s = cs
    · subst hx
      rw [hcur_self] at hj
      by_cases hjK : j = K
      · -- the newly recorded rejection: b keeps its incumbent over s;
        -- no stable matching can pair s with b, else (incumbent, b) blocks it
        subst hjK
        rw [← hbdef]
        intro hMs
        have hMos_ne : M.getD os 0 ≠ b := by
          intro he
          have h1 := rank_of_getD hMrow hoslt
          have h2 := rank_of_getD hMrow hs
          rw [he] at h1
          rw [hMs] at h2
          rw [h1] at h2
          exact hoscs h2
        -- the incumbent's cursor sits just past b
        rcases hinv.smatch_ok os hoslt with hosun | ⟨b2, hb2, hsb2, hbs2, hc1, hcrow⟩
        · rw [hsm_os] at hosun; exact cast_ne_neg_one b hosun
        have hb2b : b2 = b := by
          rw [hsm_os] at hsb2
          exact_mod_cast hsb2.symm
        rw [hb2b] at hcrow
        have hrowos := valid_srow hv hoslt
        have hcos_le : cursor st os ≤ n := hinv.cursor_le os hoslt
        have hClt : cursor st os - 1 < n := by omega
        have hrank_b_os : rank_of (srow sp os) b = cursor st os - 1 := by
          rw [← hcrow]
          exact rank_of_getD hrowos hClt
        have hMos_lt : M.getD os 0 < n := getD_row_lt hMrow hoslt
        have hside_os : rank_of (srow sp os) b < rank_of (srow sp os) (M.getD os 0) := by
          rcases Nat.lt_trichotomy (rank_of (srow sp os) (M.getD os 0))
            (cursor st os - 1) with hcase | hcase | hcase
          · exfalso
            have hget : (srow sp os).getD (rank_of (srow sp os) (M.getD os 0)) 0 =
                M.getD os 0 := getD_rank_of hrowos hMos_lt
            have hnotmine : bmatch st
                ((srow sp os).getD (rank_of (srow sp os) (M.getD os 0)) 0) ≠ (os : Int) := by
              rw [hget]
              intro habs
              rcases hinv.bmatch_ok (M.getD os 0) hMos_lt with hh | ⟨s2, hs2, hbs2', hsb2', _⟩
              · rw [habs] at hh; exact cast_ne_neg_one os hh
              · have hs2os : s2 = os := by rw [habs] at hbs2'; exact_mod_cast hbs2'.symm
                rw [hs2os, hsm_os] at hsb2'
                have : b = M.getD os 0 := by exact_mod_cast hsb2'
                exact hMos_ne this.symm
            have hrej := hinv.rej_ok M hM os hoslt
              (rank_of (srow sp os) (M.getD os 0)) (by omega) hnotmine
            exact hrej hget.symm
          · exfalso
            have hget : (srow sp os).getD (cursor st os - 1) 0 = M.getD os 0 := by
              rw [← hcase]; exact getD_rank_of hrowos hMos_lt
            rw [hcrow] at hget
            exact hMos_ne hget.symm
          · rw [hrank_b_os]; exact hcase
        have hMidx : M.indexOf b = s := by
          have h2 := rank_of_getD hMrow hs
          rw [hMs] at h2
          exact h2
        have hside_b : rank_of (brow bp b) os < rank_of (brow bp b) (M.indexOf b) := by
          rw [hMidx]
          exact hstrict
        exact hM.2.2.2 os hoslt b hb hMos_ne ⟨hside_os, hside_b⟩
      · exact hinv.rej_ok M hM s hs j (by omega) hne
    · rw [hcur_ne s hx] at hj
      exact hinv.rej_ok M hM s hs j hj hne

/-! ## The invariant is preserved by every loop-body iteration -/

theorem propose_inv {n : Nat} {sp bp : List (List Nat)} (hv : valid_prefs n sp bp)
    {st : GSState} (hinv : Inv sp bp n st) {cs : Nat} (hcs : cs < n) :
    Inv sp bp n (propose sp bp n st cs) := by
  by_cases hun : smatch st cs = -1
  · have hK : cursor st cs < n := cursor_lt_of_unmatched hv hinv hcs hun
    have hrowcs := valid_srow hv hcs
    have hb : (srow sp cs).getD (cursor st cs) 0 < n := getD_row_lt hrowcs hK
    have hrowb := valid_brow hv hb
    have hrk : rank_scan n (brow bp ((srow sp cs).getD (cursor st cs) 0)) cs
        st.curr_seller_rank =
        (rank_of (brow bp ((srow sp cs).getD (cursor st cs) 0)) cs : Int) :=
      rank_scan_eq_rank hrowb hcs _
    by_cases hfree : bmatch st ((srow sp cs).getD (cursor st cs) 0) = -1
    · rw [propose_accept hun rfl rfl hfree]
      exact inv_accept_core hv hinv hcs hun hK rfl hrk hfree
    · rcases hinv.bmatch_ok _ hb with h1 | ⟨os, hosn, hbos, hsos, hbfos⟩
      · exact absurd h1 hfree
      by_cases hclt : rank_scan n (brow bp ((srow sp cs).getD (cursor st cs) 0)) cs
          st.curr_seller_rank < bfinal st ((srow sp cs).getD (cursor st cs) 0)
      · rw [propose_switch hun rfl rfl rfl hfree hclt]
        rw [hbos, cast_toNat]
        have hltn : rank_of (brow bp ((srow sp cs).getD (cursor st cs) 0)) cs <
            rank_of (brow bp ((srow sp cs).getD (cursor st cs) 0)) os := by
          rw [hrk, hbfos] at hclt
          exact_mod_cast hclt
        exact inv_switch_core hv hinv hcs hun hK rfl hrk hbos hosn hltn
      · rw [propose_reject hun rfl rfl hfree hclt]
        have hgen : rank_of (brow bp ((srow sp cs).getD (cursor st cs) 0)) os ≤
            rank_of (brow bp ((srow sp cs).getD (cursor st cs) 0)) cs := by
          rw [hrk, hbfos] at hclt
          have := not_lt.mp hclt
          exact_mod_cast this
        exact inv_reject_core hv hinv hcs hun hK rfl hbos hosn hgen
  · rw [propose_matched hun]
    exact hinv

/-! ## Invariant at initialization, and through passes and the loop -/

theorem init_inv {n : Nat} {sp bp : List (List Nat)} : Inv sp bp n (init_state n) := by
  constructor
  · simp [init_state]
  · simp [init_state]
  · simp [init_state]
  · simp [init_state]
  · intro s hs
    rw [show cursor (init_state n) s = (List.replicate n 0).getD s 0 from rfl,
      getD_replicate_of_lt _ _ hs]
    omega
  · intro s hs
    exact Or.inl (by
      show (List.replicate n (-1 : Int)).getD s 0 = -1
      rw [getD_replicate_of_lt _ _ hs])
  · intro b hb
    exact Or.inl (by
      show (List.replicate n (-1 : Int)).getD b 0 = -1
      rw [getD_replicate_of_lt _ _ hb])
  · intro s hs j hj
    rw [show cursor (init_state n) s = (List.replicate n 0).getD s 0 from rfl,
      getD_replicate_of_lt _ _ hs] at hj
    omega
  · show (n : Int) = (unmatched_count (init_state n) n : Int)
    have hcount : unmatched_count (init_state n) n = n := by
      rw [unmatched_count]
      have hall : ∀ a ∈ List.range n, (fun s => smatch (init_state n) s == -1) a = true := by
        intro a ha
        have hsm : smatch (init_state n) a = -1 := by
          show (List.replicate n (-1 : Int)).getD a 0 = -1
          exact getD_replicate_of_lt _ _ (List.mem_range.mp ha)
        simp [hsm]
      rw [List.countP_eq_length.mpr hall, List.length_range]
    rw [hcount]
  · intro M hM s hs j hj
    rw [show cursor (init_state n) s = (List.replicate n 0).getD s 0 from rfl,
      getD_replicate_of_lt _ _ hs] at hj
    omega

theorem foldl_propose_inv {n : Nat} {sp bp : List (List Nat)} (hv : valid_prefs n sp bp) :
    ∀ (l : List Nat), (∀ x ∈ l, x < n) → ∀ st, Inv sp bp n st →
      Inv sp bp n (l.foldl (propose sp bp n) st) := by
  intro l
  induction l with
  | nil => intro _ st hinv; exact hinv
  | cons x t ih =>
    intro hmem st hinv
    exact ih (fun y hy => hmem y (List.mem_cons_of_mem x hy))
      _ (propose_inv hv hinv (hmem x (List.mem_cons_self x t)))

theorem gs_pass_inv {n : Nat} {sp bp : List (List Nat)} (hv : valid_prefs n sp bp)
    {st : GSState} (hinv : Inv sp bp n st) : Inv sp bp n (gs_pass sp bp n st) :=
  foldl_propose_inv hv (List.range n) (fun _ hx => List.mem_range.mp hx) st hinv

theorem gs_loop_inv {n : Nat} {sp bp : List (List Nat)} (hv : valid_prefs n sp bp) :
    ∀ (fuel : Nat) (st : GSState), Inv sp bp n st →
      Inv sp bp n (gs_loop sp bp n fuel st) := by
  intro fuel
  induction fuel with
  | zero => intro st hinv; exact hinv
  | succ k ih =>
    intro st hinv
    rw [show gs_loop sp bp n (k + 1) st =
      if st.bachelor_count > 0 then gs_loop sp bp n k (gs_pass sp bp n st) else st from rfl]
    by_cases hbc : st.bachelor_count > 0
    · rw [if_pos hbc]; exact ih _ (gs_pass_inv hv hinv)
    · rw [if_neg hbc]; exact hinv

/-! ## Cursor monotonicity and pass progress -/

theorem propose_next_choices (sp bp : List (List Nat)) (n : Nat) (st : GSState) (t : Nat) :
    (propose sp bp n st t).seller_next_choices = st.seller_next_choices ∨
    (propose sp bp n st t).seller_next_choices =
      st.seller_next_choices.set t (st.seller_next_choices.getD t 0 + 1) := by
  unfold propose
  by_cases h : st.seller_matches.getD t 0 = -1
  · rw [if_pos h]
    dsimp only
    by_cases h2 : st.buyer_matches.getD ((sp.getD t []).getD (st.seller_next_choices.getD t 0) 0) 0 = -1
    · rw [if_pos h2]; right; rfl
    · rw [if_neg h2]
      by_cases h3 : rank_scan n (bp.getD ((sp.getD t []).getD (st.seller_next_choices.getD t 0) 0) [])
          t st.curr_seller_rank <
          st.buyer_final_prefs.getD ((sp.getD t []).getD (st.seller_next_choices.getD t 0) 0) 0
      · rw [if_pos h3]; right; rfl
      · rw [if_neg h3]; right; rfl
  · rw [if_neg h]; left; rfl

theorem getD_set_succ_le (l : List Nat) (t : Nat) :
    l.getD t 0 ≤ (l.set t (l.getD t 0 + 1)).getD t 0 := by
  by_cases h : t < l.length
  · rw [getD_set_self _ _ _ _ h]; omega
  · rw [List.set_eq_of_length_le (by omega)]

theorem cursor_le_propose (sp bp : List (List Nat)) (n : Nat) (st : GSState) (t s : Nat) :
    cursor st s ≤ cursor (propose sp bp n st t) s := by
  rcases propose_next_choices sp bp n st t with h | h <;>
    rw [show cursor (propose sp bp n st t) s = (propose sp bp n st t).seller_next_choices.getD s 0
      from rfl, h]
  · exact le_refl _
  · by_cases hst : s = t
    · subst hst; exact getD_set_succ_le _ _
    · rw [getD_set_ne _ (fun hh => hst hh.symm)]
      exact le_refl _

theorem cursor_le_foldl (sp bp : List (List Nat)) (n : Nat) :
    ∀ (l : List Nat) (st : GSState) (s : Nat),
      cursor st s ≤ cursor (l.foldl (propose sp bp n) st) s := by
  intro l
  induction l with
  | nil => intro st s; exact le_refl _
  | cons x t ih =>
    intro st s
    exact le_trans (cursor_le_propose sp bp n st x s) (ih _ s)

theorem cursor_le_pass (sp bp : List (List Nat)) (n : Nat) (st : GSState) (s : Nat) :
    cursor st s ≤ cursor (gs_pass sp bp n st) s :=
  cursor_le_foldl sp bp n (List.range n) st s

theorem cursor_le_loop (sp bp : List (List Nat)) (n : Nat) :
    ∀ (fuel : Nat) (st : GSState) (s : Nat),
      cursor st s ≤ cursor (gs_loop sp bp n fuel st) s := by
  intro fuel
  induction fuel with
  | zero => intro st s; exact le_refl _
  | succ k ih =>
    intro st s
    rw [show gs_loop sp bp n (k + 1) st =
      if st.bachelor_count > 0 then gs_loop sp bp n k (gs_pass sp bp n st) else st from rfl]
    by_cases hbc : st.bachelor_count > 0
    · rw [if_pos hbc]
      exact le_trans (cursor_le_pass sp bp n st s) (ih _ s)
    · rw [if_neg hbc]

/-- `-1` is preserved at `s` by setting any other index, or by writing `-1`. -/
theorem getD_set_keeps_neg_one (l : List Int) (i s : Nat) (h : l.getD s 0 = -1) :
    (l.set i (-1)).getD s 0 = -1 := by
  by_cases his : i = s
  · subst his
    by_cases hlen : i < l.length
    · rw [getD_set_self _ _ _ _ hlen]
    · rw [List.set_eq_of_length_le (by omega)]
      exact h
  · rw [getD_set_ne _ his]
    exact h

/-- Another seller's iteration never matches a different unmatched seller. -/
theorem propose_keeps_unmatched (sp bp : List (List Nat)) (n : Nat) (st : GSState)
    (t s : Nat) (hst : s ≠ t) (h : smatch st s = -1) :
    smatch (propose sp bp n st t) s = -1 := by
  unfold propose
  by_cases hm : st.seller_matches.getD t 0 = -1
  · rw [if_pos hm]
    dsimp only
    by_cases h2 : st.buyer_matches.getD ((sp.getD t []).getD (st.seller_next_choices.getD t 0) 0) 0 = -1
    · rw [if_pos h2]
      show (st.seller_matches.set t _).getD s 0 = -1
      rw [getD_set_ne _ (fun hh => hst hh.symm)]
      exact h
    · rw [if_neg h2]
      by_cases h3 : rank_scan n (bp.getD ((sp.getD t []).getD (st.seller_next_choices.getD t 0) 0) [])
          t st.curr_seller_rank <
          st.buyer_final_prefs.getD ((sp.getD t []).getD (st.seller_next_choices.getD t 0) 0) 0
      · rw [if_pos h3]
        show ((st.seller_matches.set t _).set _ (-1)).getD s 0 = -1
        apply getD_set_keeps_neg_one
        rw [getD_set_ne _ (fun hh => hst hh.symm)]
        exact h
      · rw [if_neg h3]
        exact h
  · rw [if_neg hm]
    exact h

/-- An unmatched seller's own iteration advances its cursor by one. -/
theorem propose_self_cursor (sp bp : List (List Nat)) (n : Nat) (st : GSState) (cs : Nat)
    (hun : smatch st cs = -1) (hlen : cs < st.seller_next_choices.length) :
    cursor (propose sp bp n st cs) cs = cursor st cs + 1 := by
  rcases propose_next_choices sp bp n st cs with h | h
  · exfalso
    -- the unmatched branch always sets the cursor list; show the matched branch is impossible
    unfold propose at h
    have hun' : st.seller_matches.getD cs 0 = -1 := hun
    rw [if_pos hun'] at h
    dsimp only at h
    by_cases h2 : st.buyer_matches.getD ((sp.getD cs []).getD (st.seller_next_choices.getD cs 0) 0) 0 = -1
    · rw [if_pos h2] at h
      have := congrArg (fun l => l.getD cs 0) h
      simp only at this
      rw [getD_set_self _ _ _ _ hlen] at this
      omega
    · rw [if_neg h2] at h
      by_cases h3 : rank_scan n (bp.getD ((sp.getD cs []).getD (st.seller_next_choices.getD cs 0) 0) [])
          cs st.curr_seller_rank <
          st.buyer_final_prefs.getD ((sp.getD cs []).getD (st.seller_next_choices.getD cs 0) 0) 0
      · rw [if_pos h3] at h
        have := congrArg (fun l => l.getD cs 0) h
        simp only at this
        rw [getD_set_self _ _ _ _ hlen] at this
        omega
      · rw [if_neg h3] at h
        have := congrArg (fun l => l.getD cs 0) h
        simp only at this
        rw [getD_set_self _ _ _ _ hlen] at this
        omega
  · rw [show cursor (propose sp bp n st cs) cs =
      (propose sp bp n st cs).seller_next_choices.getD cs 0 from rfl, h,
      getD_set_self _ _ _ _ hlen]
    rfl

theorem foldl_propose_progress {n : Nat} {sp bp : List (List Nat)} (hv : valid_prefs n sp bp) :
    ∀ (l : List Nat), (∀ x ∈ l, x < n) → ∀ (st : GSState) (s0 : Nat), s0 ∈ l →
      Inv sp bp n st → smatch st s0 = -1 →
      cursor st s0 + 1 ≤ cursor (l.foldl (propose sp bp n) st) s0 := by
  intro l
  induction l with
  | nil => intro _ st s0 hmem; exact absurd hmem (List.not_mem_nil s0)
  | cons x t ih =>
    intro hmem st s0 hs0mem hinv hun
    by_cases hx : x = s0
    · subst hx
      have hlen : x < st.seller_next_choices.length := by
        rw [hinv.len_next]; exact hmem x (List.mem_cons_self x t)
      have hself := propose_self_cursor sp bp n st x hun hlen
      have hmono := cursor_le_foldl sp bp n t (propose sp bp n st x) x
      show cursor st x + 1 ≤ cursor (t.foldl (propose sp bp n) (propose sp bp n st x)) x
      omega
    · have hs0t : s0 ∈ t := by
        rcases List.mem_cons.mp hs0mem with h | h
        · exact absurd h.symm hx
        · exact h
      have hinv' := propose_inv hv hinv (hmem x (List.mem_cons_self x t))
      have hun' := propose_keeps_unmatched sp bp n st x s0 (fun hh => hx hh.symm) hun
      have hmono := cursor_le_propose sp bp n st x s0
      have := ih (fun y hy => hmem y (List.mem_cons_of_mem x hy)) _ s0 hs0t hinv' hun'
      show cursor st s0 + 1 ≤ cursor (t.foldl (propose sp bp n) (propose sp bp n st x)) s0
      omega

/-! ## Termination: the loop empties the bachelor pool within n*n passes -/

theorem cursor_sum_le {n : Nat} {sp bp : List (List Nat)} {st : GSState}
    (hinv : Inv sp bp n st) : cursor_sum st n ≤ n * n := by
  unfold cursor_sum
  have h := Finset.sum_le_card_nsmul (Finset.range n) (cursor st) n
    (fun x hx => hinv.cursor_le x (Finset.mem_range.mp hx))
  rw [Finset.card_range, smul_eq_mul] at h
  exact h

theorem cursor_sum_lt_pass {n : Nat} {sp bp : List (List Nat)} (hv : valid_prefs n sp bp)
    {st : GSState} (hinv : Inv sp bp n st) {s0 : Nat} (hs0 : s0 < n)
    (hun : smatch st s0 = -1) :
    cursor_sum st n < cursor_sum (gs_pass sp bp n st) n := by
  unfold cursor_sum
  apply Finset.sum_lt_sum
  · intro i _
    exact cursor_le_pass sp bp n st i
  · refine ⟨s0, Finset.mem_range.mpr hs0, ?_⟩
    have := foldl_propose_progress hv (List.range n) (fun x hx => List.mem_range.mp hx)
      st s0 (List.mem_range.mpr hs0) hinv hun
    show cursor st s0 < cursor (gs_pass sp bp n st) s0
    unfold gs_pass
    omega

theorem gs_loop_zero_bc {n : Nat} {sp bp : List (List Nat)} (hv : valid_prefs n sp bp) :
    ∀ (fuel : Nat) (st : GSState), Inv sp bp n st →
      n * n + 1 ≤ cursor_sum st n + fuel →
      (gs_loop sp bp n fuel st).bachelor_count = 0 ∧
        Inv sp bp n (gs_loop sp bp n fuel st) := by
  intro fuel
  induction fuel with
  | zero =>
    intro st hinv hbound
    have := cursor_sum_le hinv
    omega
  | succ k ih =>
    intro st hinv hbound
    rw [show gs_loop sp bp n (k + 1) st =
      if st.bachelor_count > 0 then gs_loop sp bp n k (gs_pass sp bp n st) else st from rfl]
    by_cases hbc : st.bachelor_count > 0
    · rw [if_pos hbc]
      have hpos : 0 < unmatched_count st n := by
        have := hinv.count_ok
        omega
      rcases unmatched_count_pos hpos with ⟨s0, hs0, hs0un⟩
      have hlt := cursor_sum_lt_pass hv hinv hs0 hs0un
      exact ih (gs_pass sp bp n st) (gs_pass_inv hv hinv) (by omega)
    · rw [if_neg hbc]
      have hz : st.bachelor_count = 0 := by
        have := hinv.count_ok
        omega
      exact ⟨hz, hinv⟩

theorem cursor_sum_init (n : Nat) : cursor_sum (init_state n) n = 0 := by
  unfold cursor_sum
  apply Finset.sum_eq_zero
  intro x hx
  show (List.replicate n 0).getD x 0 = 0
  rw [getD_replicate_of_lt _ _ (Finset.mem_range.mp hx)]

theorem gs_run_done {n : Nat} {sp bp : List (List Nat)} (hv : valid_prefs n sp bp) :
    (gs_run sp bp n).bachelor_count = 0 ∧ Inv sp bp n (gs_run sp bp n) := by
  apply gs_loop_zero_bc hv (n * n + 1) (init_state n) init_inv
  rw [cursor_sum_init]
  omega

theorem gs_loop_stop {sp bp : List (List Nat)} {n : Nat} {st : GSState}
    (h : ¬ st.bachelor_count > 0) : ∀ (fuel : Nat), gs_loop sp bp n fuel st = st := by
  intro fuel
  cases fuel with
  | zero => rfl
  | succ k =>
    rw [show gs_loop sp bp n (k + 1) st =
      if st.bachelor_count > 0 then gs_loop sp bp n k (gs_pass sp bp n st) else st from rfl,
      if_neg h]

theorem gs_loop_add (sp bp : List (List Nat)) (n : Nat) :
    ∀ (f g : Nat) (st : GSState),
      gs_loop sp bp n (f + g) st = gs_loop sp bp n g (gs_loop sp bp n f st) := by
  intro f
  induction f with
  | zero =>
    intro g st
    rw [Nat.zero_add]
    rfl
  | succ k ih =>
    intro g st
    by_cases hbc : st.bachelor_count > 0
    · rw [show k + 1 + g = (k + g) + 1 from by omega]
      rw [show gs_loop sp bp n ((k + g) + 1) st =
        if st.bachelor_count > 0 then gs_loop sp bp n (k + g) (gs_pass sp bp n st) else st
        from rfl, if_pos hbc, ih]
      rw [show gs_loop sp bp n (k + 1) st =
        if st.bachelor_count > 0 then gs_loop sp bp n k (gs_pass sp bp n st) else st
        from rfl, if_pos hbc]
    · rw [gs_loop_stop hbc, gs_loop_stop hbc, gs_loop_stop hbc]

theorem gs_loop_ge_run {n : Nat} {sp bp : List (List Nat)} (hv : valid_prefs n sp bp)
    {g : Nat} (hg : n * n + 1 ≤ g) :
    gs_loop sp bp n g (init_state n) = gs_run sp bp n := by
  rw [show g = (n * n + 1) + (g - (n * n + 1)) from by omega, gs_loop_add]
  have hbc := (gs_run_done hv).1
  have hstop : ¬ (gs_run sp bp n).bachelor_count > 0 := by omega
  exact gs_loop_stop hstop _

/-! ## Properties of the final state -/

theorem final_seller_matched {n : Nat} {sp bp : List (List Nat)} (hv : valid_prefs n sp bp) :
    ∀ s, s < n → smatch (gs_run sp bp n) s ≠ -1 := by
  obtain ⟨hbc, hinv⟩ := gs_run_done hv
  have hz : unmatched_count (gs_run sp bp n) n = 0 := by
    have := hinv.count_ok
    omega
  exact unmatched_count_eq_zero hz

theorem final_seller_partner {n : Nat} {sp bp : List (List Nat)} (hv : valid_prefs n sp bp) :
    ∀ s, s < n → ∃ b, b < n ∧ smatch (gs_run sp bp n) s = (b : Int) ∧
      bmatch (gs_run sp bp n) b = (s : Int) := by
  intro s hs
  obtain ⟨hbc, hinv⟩ := gs_run_done hv
  rcases hinv.smatch_ok s hs with h1 | ⟨b, hb, hsb, hbs, _, _⟩
  · exact absurd h1 (final_seller_matched hv s hs)
  · exact ⟨b, hb, hsb, hbs⟩

theorem final_buyer_matched {n : Nat} {sp bp : List (List Nat)} (hv : valid_prefs n sp bp) :
    ∀ b, b < n → bmatch (gs_run sp bp n) b ≠ -1 := by
  intro b hb hfree
  obtain ⟨hbc, hinv⟩ := gs_run_done hv
  -- all n sellers are matched, each to a buyer other than b: pigeonhole
  have hmap : ∀ s, s < n → ∃ b', b' < n ∧ smatch (gs_run sp bp n) s = (b' : Int) ∧ b' ≠ b := by
    intro s hs
    rcases final_seller_partner hv s hs with ⟨b', hb', hsb, hbs⟩
    refine ⟨b', hb', hsb, ?_⟩
    intro he
    rw [he, hfree] at hbs
    exact cast_ne_neg_one s hbs.symm
  have hinj : Set.InjOn (fun s => (smatch (gs_run sp bp n) s).toNat) (Finset.range n) := by
    intro s1 hs1 s2 hs2 heq
    simp only [Finset.coe_sort_coe, Finset.mem_coe, Finset.mem_range] at hs1 hs2
    rcases final_seller_partner hv s1 hs1 with ⟨c1, hc1, hsc1, hbc1⟩
    rcases final_seller_partner hv s2 hs2 with ⟨c2, hc2, hsc2, hbc2⟩
    simp only at heq
    rw [hsc1, hsc2, Int.toNat_natCast, Int.toNat_natCast] at heq
    subst heq
    rw [hbc1] at hbc2
    exact Nat.cast_injective hbc2
  have hsub : (Finset.range n).image (fun s => (smatch (gs_run sp bp n) s).toNat) ⊆
      (Finset.range n).erase b := by
    intro x hx
    rcases Finset.mem_image.mp hx with ⟨s, hsmem, hsx⟩
    have hs : s < n := Finset.mem_range.mp hsmem
    rcases hmap s hs with ⟨b', hb', hsb, hbneq⟩
    rw [← hsx, hsb, Int.toNat_natCast]
    exact Finset.mem_erase.mpr ⟨hbneq, Finset.mem_range.mpr hb'⟩
  have hcard : n ≤ ((Finset.range n).erase b).card := by
    have h1 : ((Finset.range n).image (fun s => (smatch (gs_run sp bp n) s).toNat)).card = n := by
      rw [Finset.card_image_of_injOn hinj, Finset.card_range]
    calc n = ((Finset.range n).image (fun s => (smatch (gs_run sp bp n) s).toNat)).card :=
          h1.symm
      _ ≤ ((Finset.range n).erase b).card := Finset.card_le_card hsub
  rw [Finset.card_erase_of_mem (Finset.mem_range.mpr hb), Finset.card_range] at hcard
  omega

theorem final_buyer_partner {n : Nat} {sp bp : List (List Nat)} (hv : valid_prefs n sp bp) :
    ∀ b, b < n → ∃ s, s < n ∧ bmatch (gs_run sp bp n) b = (s : Int) ∧
      smatch (gs_run sp bp n) s = (b : Int) := by
  intro b hb
  obtain ⟨hbc, hinv⟩ := gs_run_done hv
  rcases hinv.bmatch_ok b hb with h1 | ⟨s, hs, hbs, hsb, _⟩
  · exact absurd h1 (final_buyer_matched hv b hb)
  · exact ⟨s, hs, hbs, hsb⟩

/-! ## Claim theorems -/

/-- C1: for every `n ≥ 0` and permutation preference tables, the matching
computed by the proposal loop is stable: there is no seller `s` and buyer `b`,
not matched to each other, such that `s` ranks `b` strictly before its own
matched buyer and `b` ranks `s` strictly before its own matched seller. -/
theorem gs_run_stable (n : Nat) (sp bp : List (List Nat)) (hv : valid_prefs n sp bp) :
    ∀ s b, s < n → b < n → smatch (gs_run sp bp n) s ≠ (b : Int) →
      ¬(rank_of (srow sp s) b < rank_of (srow sp s) (smatch (gs_run sp bp n) s).toNat ∧
        rank_of (brow bp b) s < rank_of (brow bp b) (bmatch (gs_run sp bp n) b).toNat) := by
  intro s b hs hb hne
  rintro ⟨hsb, hbs⟩
  obtain ⟨hbc, hinv⟩ := gs_run_done hv
  have hrows := valid_srow hv hs
  have hrowb := valid_brow hv hb
  rcases hinv.smatch_ok s hs with h1 | ⟨b', hb', hsb', hbs', hc1, hcrow⟩
  · exact final_seller_matched hv s hs h1
  have hcn : cursor (gs_run sp bp n) s ≤ n := hinv.cursor_le s hs
  have htn : (smatch (gs_run sp bp n) s).toNat = b' := by rw [hsb']; exact cast_toNat b'
  have hCn : cursor (gs_run sp bp n) s - 1 < n := by omega
  have hrkb' : rank_of (srow sp s) b' = cursor (gs_run sp bp n) s - 1 := by
    rw [← hcrow]
    exact rank_of_getD hrows hCn
  rw [htn] at hsb
  -- b got a proposal from s (at position rank_of b < cursor), so b's final
  -- match is at least as good for b as s
  have hjb : rank_of (srow sp s) b < cursor (gs_run sp bp n) s := by omega
  have hgetb : (srow sp s).getD (rank_of (srow sp s) b) 0 = b := getD_rank_of hrows hb
  have hprop := hinv.proposed_ok s hs (rank_of (srow sp s) b) hjb
  rw [hgetb] at hprop
  have hs'ne : (bmatch (gs_run sp bp n) b).toNat ≠ s := by
    intro he
    rcases final_buyer_partner hv b hb with ⟨s2, hs2, hbs2, hsb2⟩
    rw [hbs2, cast_toNat] at he
    subst he
    rw [hsb'] at hsb2
    have : b' = b := by exact_mod_cast hsb2
    exact hne (by rw [hsb', this])
  have := hprop.2
  -- rank (final match of b) ≤ rank s, yet rank s < rank (final match of b)
  omega

/-- C2: after the loop terminates on valid input, `seller_matches` and
`buyer_matches` form a perfect bijection: every seller appears exactly once as
a value of `buyer_matches`, every buyer exactly once as a value of
`seller_matches`, no entry is the `-1` sentinel, and for `n = 0` the loop body
never runs and the result is the (empty) initial state. -/
theorem gs_run_perfect (n : Nat) (sp bp : List (List Nat)) (hv : valid_prefs n sp bp) :
    (∀ s, s < n → ∃ b, b < n ∧ smatch (gs_run sp bp n) s = (b : Int) ∧
      bmatch (gs_run sp bp n) b = (s : Int)) ∧
    (∀ b, b < n → ∃ s, s < n ∧ bmatch (gs_run sp bp n) b = (s : Int) ∧
      smatch (gs_run sp bp n) s = (b : Int)) ∧
    (∀ s, s < n → smatch (gs_run sp bp n) s ≠ -1) ∧
    (∀ b, b < n → bmatch (gs_run sp bp n) b ≠ -1) ∧
    (∀ s1 s2, s1 < n → s2 < n →
      smatch (gs_run sp bp n) s1 = smatch (gs_run sp bp n) s2 → s1 = s2) ∧
    (∀ b1 b2, b1 < n → b2 < n →
      bmatch (gs_run sp bp n) b1 = bmatch (gs_run sp bp n) b2 → b1 = b2) ∧
    (∀ sp0 bp0 : List (List Nat), gs_run sp0 bp0 0 = init_state 0) ∧
    (init_state 0).seller_matches = [] ∧ (init_state 0).buyer_matches = [] := by
  refine ⟨final_seller_partner hv, final_buyer_partner hv, final_seller_matched hv,
    final_buyer_matched hv, ?_, ?_, fun sp0 bp0 => rfl, rfl, rfl⟩
  · intro s1 s2 hs1 hs2 heq
    rcases final_seller_partner hv s1 hs1 with ⟨c1, hc1, hsc1, hbc1⟩
    rcases final_seller_partner hv s2 hs2 with ⟨c2, hc2, hsc2, hbc2⟩
    rw [hsc1, hsc2] at heq
    have : c1 = c2 := by exact_mod_cast heq
    subst this
    rw [hbc1] at hbc2
    exact Nat.cast_injective hbc2
  · intro b1 b2 hb1 hb2 heq
    rcases final_buyer_partner hv b1 hb1 with ⟨c1, hc1, hsc1, hbc1⟩
    rcases final_buyer_partner hv b2 hb2 with ⟨c2, hc2, hsc2, hbc2⟩
    rw [hsc1, hsc2] at heq
    have : c1 = c2 := by exact_mod_cast heq
    subst this
    rw [hbc1] at hbc2
    exact Nat.cast_injective hbc2

/-- C3: on valid input, the computed matching is the seller-optimal stable
matching: for every stable matching `M` of the same profile, every seller ranks
its computed partner at least as high (as small a rank) as its partner under
`M`. -/
theorem gs_run_seller_optimal (n : Nat) (sp bp : List (List Nat)) (hv : valid_prefs n sp bp) :
    ∀ M, is_stable_matching n sp bp M → ∀ s, s < n →
      rank_of (srow sp s) (smatch (gs_run sp bp n) s).toNat ≤
        rank_of (srow sp s) (M.getD s 0) := by
  intro M hM s hs
  obtain ⟨hbc, hinv⟩ := gs_run_done hv
  have hrows := valid_srow hv hs
  have hMrow : perm_row n M := ⟨hM.1, hM.2.1, hM.2.2.1⟩
  rcases hinv.smatch_ok s hs with h1 | ⟨b', hb', hsb', hbs', hc1, hcrow⟩
  · exact absurd h1 (final_seller_matched hv s hs)
  have hcn : cursor (gs_run sp bp n) s ≤ n := hinv.cursor_le s hs
  have htn : (smatch (gs_run sp bp n) s).toNat = b' := by rw [hsb']; exact cast_toNat b'
  have hCn : cursor (gs_run sp bp n) s - 1 < n := by omega
  have hrkb' : rank_of (srow sp s) b' = cursor (gs_run sp bp n) s - 1 := by
    rw [← hcrow]
    exact rank_of_getD hrows hCn
  rw [htn, hrkb']
  have hMlt : M.getD s 0 < n := getD_row_lt hMrow hs
  by_contra hgt
  have hjM : rank_of (srow sp s) (M.getD s 0) < cursor (gs_run sp bp n) s - 1 := by omega
  have hgetM : (srow sp s).getD (rank_of (srow sp s) (M.getD s 0)) 0 = M.getD s 0 :=
    getD_rank_of hrows hMlt
  have hnotmine : bmatch (gs_run sp bp n)
      ((srow sp s).getD (rank_of (srow sp s) (M.getD s 0)) 0) ≠ (s : Int) := by
    rw [hgetM]
    intro habs
    rcases final_buyer_partner hv (M.getD s 0) hMlt with ⟨s2, hs2, hbs2, hsb2⟩
    rw [hbs2] at habs
    have hs2s : s2 = s := by exact_mod_cast habs
    rw [hs2s, hsb'] at hsb2
    have hbM : b' = M.getD s 0 := by exact_mod_cast hsb2
    -- then M s would sit at the cursor position, not strictly earlier
    rw [← hbM, hrkb'] at hjM
    omega
  have hrej := hinv.rej_ok M hM s hs (rank_of (srow sp s) (M.getD s 0)) (by omega) hnotmine
  exact hrej hgetM.symm

/-- C4: at termination, for every buyer `b` the recorded acceptance rank
`buyer_final_prefs[b]` is the position `j` in `buyer_prefs[b]` at which
`buyer_prefs[b][j]` is the seller `buyer_matches[b]` that `b` ends matched
to. -/
theorem gs_run_rank_recorded (n : Nat) (sp bp : List (List Nat)) (hv : valid_prefs n sp bp) :
    ∀ b, b < n → ∃ j, j < n ∧ bfinal (gs_run sp bp n) b = (j : Int) ∧
      (brow bp b).getD j 0 = (bmatch (gs_run sp bp n) b).toNat := by
  intro b hb
  obtain ⟨hbc, hinv⟩ := gs_run_done hv
  have hrowb := valid_brow hv hb
  rcases hinv.bmatch_ok b hb with h1 | ⟨s, hs, hbs, hsb, hbf⟩
  · exact absurd h1 (final_buyer_matched hv b hb)
  refine ⟨rank_of (brow bp b) s, rank_of_lt hrowb hs, hbf, ?_⟩
  rw [hbs, cast_toNat]
  exact getD_rank_of hrowb hs

/-- C8: every proposal cursor starts at 0, never decreases at any loop-body
iteration, never exceeds `n` at any state reached by the loop, and the buyers
a seller has proposed to so far (the prefix of its row below its cursor) are
pairwise distinct, so no seller ever proposes to the same buyer twice. -/
theorem gs_cursor_discipline (n : Nat) (sp bp : List (List Nat)) (hv : valid_prefs n sp bp) :
    (∀ s, cursor (init_state n) s = 0) ∧
    (∀ st t s, cursor st s ≤ cursor (propose sp bp n st t) s) ∧
    (∀ fuel st s, cursor st s ≤ cursor (gs_loop sp bp n fuel st) s) ∧
    (∀ fuel s, s < n → cursor (gs_loop sp bp n fuel (init_state n)) s ≤ n) ∧
    (∀ fuel s, s < n → ∀ j k, j < k → k < cursor (gs_loop sp bp n fuel (init_state n)) s →
      (srow sp s).getD j 0 ≠ (srow sp s).getD k 0) := by
  refine ⟨?_, fun st t s => cursor_le_propose sp bp n st t s,
    fun fuel st s => cursor_le_loop sp bp n fuel st s, ?_, ?_⟩
  · intro s
    show (List.replicate n 0).getD s 0 = 0
    by_cases hs : s < n
    · exact getD_replicate_of_lt _ _ hs
    · rw [List.getD_eq_getElem?_getD, List.getElem?_eq_none (by simpa using hs)]
      rfl
  · intro fuel s hs
    exact (gs_loop_inv hv fuel (init_state n) init_inv).cursor_le s hs
  · intro fuel s hs j k hjk hk
    have hle : cursor (gs_loop sp bp n fuel (init_state n)) s ≤ n :=
      (gs_loop_inv hv fuel (init_state n) init_inv).cursor_le s hs
    exact getD_row_ne (valid_srow hv hs) (by omega) (by omega) (by omega)

/-- C9: on valid input the proposal loop terminates — with fuel `n*n + 1` the
bachelor count reaches 0, any larger fuel gives the identical final state, each
seller makes at most `n` proposals, and the total number of proposals (the sum
of all cursors) is at most `n*n`. -/
theorem gs_terminates (n : Nat) (sp bp : List (List Nat)) (hv : valid_prefs n sp bp) :
    (gs_run sp bp n).bachelor_count = 0 ∧
    (∀ g, n * n + 1 ≤ g → gs_loop sp bp n g (init_state n) = gs_run sp bp n) ∧
    (∀ s, s < n → cursor (gs_run sp bp n) s ≤ n) ∧
    cursor_sum (gs_run sp bp n) n ≤ n * n := by
  obtain ⟨hbc, hinv⟩ := gs_run_done hv
  exact ⟨hbc, fun g hg => gs_loop_ge_run hv hg, hinv.cursor_le, cursor_sum_le hinv⟩

/-- C7: for every `n` and every `rand()` stream bounded by `RAND_MAX`, every
row of both generated preference tables is a permutation of `[0, n)` — each
opposite-side identifier occurs exactly once, no repeats, no omissions — so
the generated tables are valid engine input. -/
theorem generator_rows_perm (RMAX : Nat) (r : Nat → Nat) (n : Nat)
    (hr : ∀ k, r k ≤ RMAX) :
    (∀ row ∈ seller_prefs_gen RMAX r n, row.Perm (List.range n) ∧ perm_row n row) ∧
    (∀ row ∈ buyer_prefs_gen RMAX r n, row.Perm (List.range n) ∧ perm_row n row) ∧
    valid_prefs n (seller_prefs_gen RMAX r n) (buyer_prefs_gen RMAX r n) := by
  have hs : ∀ row ∈ seller_prefs_gen RMAX r n, row.Perm (List.range n) ∧ perm_row n row := by
    intro row hrow
    rcases List.mem_map.mp hrow with ⟨i, _, hi⟩
    have hperm := randlist_after_perm hr n (2 * i + 1)
    rw [hi] at hperm
    exact ⟨hperm, perm_row_of_perm_range hperm⟩
  have hbuy : ∀ row ∈ buyer_prefs_gen RMAX r n, row.Perm (List.range n) ∧ perm_row n row := by
    intro row hrow
    rcases List.mem_map.mp hrow with ⟨i, _, hi⟩
    have hperm := randlist_after_perm hr n (2 * i + 2)
    rw [hi] at hperm
    exact ⟨hperm, perm_row_of_perm_range hperm⟩
  refine ⟨hs, hbuy, ?_, ?_, fun row hrow => (hs row hrow).2, fun row hrow => (hbuy row hrow).2⟩
  · rw [seller_prefs_gen, List.length_map, List.length_range]
  · rw [buyer_prefs_gen, List.length_map, List.length_range]

/-- C6 counterexample: with `n = 2` and the `rand()` stream pinned at
`RAND_MAX = 32767`, the working buffer starts as the identity `[0, 1]`, but
the input to the second shuffle is `[1, 0]` — the previous row's permuted
buffer, not a reset identity sequence — refuting the claim that every one of
the `2n` shuffles starts from the identity. -/
theorem generator_no_reset_counterexample :
    randlist_after 32767 (fun _ => 32767) 2 0 = List.range 2 ∧
    randlist_after 32767 (fun _ => 32767) 2 1 = [1, 0] ∧
    randlist_after 32767 (fun _ => 32767) 2 1 ≠ List.range 2 := by
  refine ⟨rfl, ?_, ?_⟩ <;> decide

/-- C6 amended: only the first shuffle starts from the identity sequence; each
later shuffle starts from the buffer exactly as the previous shuffle left it
(the previous row's already-permuted order), and every shuffle's starting
buffer is nevertheless a permutation of `[0, n)`. -/
theorem generator_shuffle_chain (RMAX : Nat) (r : Nat → Nat) (n : Nat)
    (hr : ∀ k, r k ≤ RMAX) :
    randlist_after RMAX r n 0 = List.range n ∧
    (∀ k, randlist_after RMAX r n (k + 1) =
      shuffle_array RMAX r ((n - 1) * k) (randlist_after RMAX r n k) n) ∧
    ∀ k, (randlist_after RMAX r n k).Perm (List.range n) :=
  ⟨rfl, fun _ => rfl, randlist_after_perm hr n⟩

/-- C5 counterexample: the argument `"abc"` does not parse as a non-negative
integer, yet the program reports no usage error: `atoi` yields 0 and the run
proceeds as if `n = 0` — refuting the claim that a non-parsing argument is
reported as a usage error. -/
theorem parse_args_counterexample :
    atoi "abc" = 0 ∧
    parse_args ["sm", "abc"] = ArgOutcome.run 0 ∧
    parse_args ["sm", "abc"] ≠ ArgOutcome.usageError := by
  refine ⟨?_, ?_, ?_⟩ <;> decide

/-- C5 amended: the usage error is reported exactly when no argument at all is
supplied (`argc == 1`); a single argument — numeric or not — is passed to
`atoi` (non-numeric text yields `n = 0`, a negative number yields a negative
`n`) and the run proceeds without any error report. -/
theorem parse_args_usage (argv : List String) :
    (parse_args argv = ArgOutcome.usageError ↔ argv.length = 1) ∧
    (argv.length = 2 → parse_args argv = ArgOutcome.run (atoi (argv.getD 1 ""))) := by
  constructor
  · constructor
    · intro h
      by_contra hlen
      unfold parse_args at h
      rw [if_neg hlen] at h
      by_cases h2 : argv.length = 2
      · rw [if_pos h2] at h; exact ArgOutcome.noConfusion h
      · rw [if_neg h2] at h; exact ArgOutcome.noConfusion h
    · intro h
      unfold parse_args
      rw [if_pos h]
  · intro h
    unfold parse_args
    rw [if_neg (by omega), if_pos h]

/-- C10: with more than one command-line argument (`argc > 2`) no usage error
is reported: both parsing branches are skipped, `n` stays 0, the engine's loop
exits immediately (the initial state is returned unchanged), and the tables
and matching printed are the empty ones of `n = 0`. -/
theorem extra_args_silent (argv : List String) (h : 2 < argv.length) :
    parse_args argv = ArgOutcome.run 0 ∧
    (∀ sp bp : List (List Nat), gs_run sp bp 0 = init_state 0) ∧
    (init_state 0).seller_matches = [] ∧ (init_state 0).buyer_matches = [] ∧
    (∀ (RMAX : Nat) (r : Nat → Nat),
      seller_prefs_gen RMAX r 0 = [] ∧ buyer_prefs_gen RMAX r 0 = []) := by
  refine ⟨?_, fun sp bp => rfl, rfl, rfl, fun RMAX r => ⟨rfl, rfl⟩⟩
  unfold parse_args
  rw [if_neg (by omega), if_neg (by omega)]

/-! ## Witnesses: each hypothesis-bearing claim theorem applied at a concrete
instance (the specification's `n = 2` scenario: seller 0 prefers buyer 1, both
buyers prefer seller 0). -/

theorem gs_run_stable_witness :
    valid_prefs 2 [[1, 0], [0, 1]] [[0, 1], [0, 1]] ∧
    ∀ (s b : Nat), s < 2 → b < 2 →
      smatch (gs_run [[1, 0], [0, 1]] [[0, 1], [0, 1]] 2) s ≠ (b : Int) →
      ¬(rank_of (srow [[1, 0], [0, 1]] s) b <
          rank_of (srow [[1, 0], [0, 1]] s)
            (smatch (gs_run [[1, 0], [0, 1]] [[0, 1], [0, 1]] 2) s).toNat ∧
        rank_of (brow [[0, 1], [0, 1]] b) s <
          rank_of (brow [[0, 1], [0, 1]] b)
            (bmatch (gs_run [[1, 0], [0, 1]] [[0, 1], [0, 1]] 2) b).toNat) :=
  ⟨by decide, gs_run_stable 2 [[1, 0], [0, 1]] [[0, 1], [0, 1]] (by decide)⟩

theorem gs_run_perfect_witness :
    valid_prefs 2 [[1, 0], [0, 1]] [[0, 1], [0, 1]] ∧
    ((∀ s : Nat, s < 2 → ∃ b : Nat, b < 2 ∧
        smatch (gs_run [[1, 0], [0, 1]] [[0, 1], [0, 1]] 2) s = (b : Int) ∧
        bmatch (gs_run [[1, 0], [0, 1]] [[0, 1], [0, 1]] 2) b = (s : Int)) ∧
      (∀ b : Nat, b < 2 → ∃ s : Nat, s < 2 ∧
        bmatch (gs_run [[1, 0], [0, 1]] [[0, 1], [0, 1]] 2) b = (s : Int) ∧
        smatch (gs_run [[1, 0], [0, 1]] [[0, 1], [0, 1]] 2) s = (b : Int)) ∧
      (∀ s : Nat, s < 2 → smatch (gs_run [[1, 0], [0, 1]] [[0, 1], [0, 1]] 2) s ≠ -1) ∧
      (∀ b : Nat, b < 2 → bmatch (gs_run [[1, 0], [0, 1]] [[0, 1], [0, 1]] 2) b ≠ -1) ∧
      (∀ (s1 s2 : Nat), s1 < 2 → s2 < 2 →
        smatch (gs_run [[1, 0], [0, 1]] [[0, 1], [0, 1]] 2) s1 =
          smatch (gs_run [[1, 0], [0, 1]] [[0, 1], [0, 1]] 2) s2 → s1 = s2) ∧
      (∀ (b1 b2 : Nat), b1 < 2 → b2 < 2 →
        bmatch (gs_run [[1, 0], [0, 1]] [[0, 1], [0, 1]] 2) b1 =
          bmatch (gs_run [[1, 0], [0, 1]] [[0, 1], [0, 1]] 2) b2 → b1 = b2) ∧
      (∀ sp0 bp0 : List (List Nat), gs_run sp0 bp0 0 = init_state 0) ∧
      (init_state 0).seller_matches = [] ∧ (init_state 0).buyer_matches = []) :=
  ⟨by decide, gs_run_perfect 2 [[1, 0], [0, 1]] [[0, 1], [0, 1]] (by decide)⟩

theorem gs_run_seller_optimal_witness :
    valid_prefs 2 [[1, 0], [0, 1]] [[0, 1], [0, 1]] ∧
    ∀ M : List Nat, is_stable_matching 2 [[1, 0], [0, 1]] [[0, 1], [0, 1]] M → ∀ s : Nat, s < 2 →
      rank_of (srow [[1, 0], [0, 1]] s)
          (smatch (gs_run [[1, 0], [0, 1]] [[0, 1], [0, 1]] 2) s).toNat ≤
        rank_of (srow [[1, 0], [0, 1]] s) (M.getD s 0) :=
  ⟨by decide, gs_run_seller_optimal 2 [[1, 0], [0, 1]] [[0, 1], [0, 1]] (by decide)⟩

theorem gs_run_rank_recorded_witness :
    valid_prefs 2 [[1, 0], [0, 1]] [[0, 1], [0, 1]] ∧
    ∀ (b : Nat), b < 2 → ∃ j : Nat, j < 2 ∧
      bfinal (gs_run [[1, 0], [0, 1]] [[0, 1], [0, 1]] 2) b = (j : Int) ∧
      (brow [[0, 1], [0, 1]] b).getD j 0 =
        (bmatch (gs_run [[1, 0], [0, 1]] [[0, 1], [0, 1]] 2) b).toNat :=
  ⟨by decide, gs_run_rank_recorded 2 [[1, 0], [0, 1]] [[0, 1], [0, 1]] (by decide)⟩

theorem gs_cursor_discipline_witness :
    valid_prefs 2 [[1, 0], [0, 1]] [[0, 1], [0, 1]] ∧
    ((∀ s : Nat, cursor (init_state 2) s = 0) ∧
      (∀ (st : GSState) (t s : Nat), cursor st s ≤ cursor (propose [[1, 0], [0, 1]] [[0, 1], [0, 1]] 2 st t) s) ∧
      (∀ (fuel : Nat) (st : GSState) (s : Nat), cursor st s ≤
        cursor (gs_loop [[1, 0], [0, 1]] [[0, 1], [0, 1]] 2 fuel st) s) ∧
      (∀ (fuel s : Nat), s < 2 →
        cursor (gs_loop [[1, 0], [0, 1]] [[0, 1], [0, 1]] 2 fuel (init_state 2)) s ≤ 2) ∧
      (∀ (fuel s : Nat), s < 2 → ∀ (j k : Nat), j < k →
        k < cursor (gs_loop [[1, 0], [0, 1]] [[0, 1], [0, 1]] 2 fuel (init_state 2)) s →
        (srow [[1, 0], [0, 1]] s).getD j 0 ≠ (srow [[1, 0], [0, 1]] s).getD k 0)) :=
  ⟨by decide, gs_cursor_discipline 2 [[1, 0], [0, 1]] [[0, 1], [0, 1]] (by decide)⟩

theorem gs_terminates_witness :
    valid_prefs 2 [[1, 0], [0, 1]] [[0, 1], [0, 1]] ∧
    ((gs_run [[1, 0], [0, 1]] [[0, 1], [0, 1]] 2).bachelor_count = 0 ∧
      (∀ g : Nat, 2 * 2 + 1 ≤ g →
        gs_loop [[1, 0], [0, 1]] [[0, 1], [0, 1]] 2 g (init_state 2) =
          gs_run [[1, 0], [0, 1]] [[0, 1], [0, 1]] 2) ∧
      (∀ s : Nat, s < 2 → cursor (gs_run [[1, 0], [0, 1]] [[0, 1], [0, 1]] 2) s ≤ 2) ∧
      cursor_sum (gs_run [[1, 0], [0, 1]] [[0, 1], [0, 1]] 2) 2 ≤ 2 * 2) :=
  ⟨by decide, gs_terminates 2 [[1, 0], [0, 1]] [[0, 1], [0, 1]] (by decide)⟩

theorem generator_rows_perm_witness :
    (∀ k, (fun _ : Nat => 0) k ≤ 32767) ∧
    ((∀ row ∈ seller_prefs_gen 32767 (fun _ : Nat => 0) 2,
        row.Perm (List.range 2) ∧ perm_row 2 row) ∧
      (∀ row ∈ buyer_prefs_gen 32767 (fun _ : Nat => 0) 2,
        row.Perm (List.range 2) ∧ perm_row 2 row) ∧
      valid_prefs 2 (seller_prefs_gen 32767 (fun _ : Nat => 0) 2)
        (buyer_prefs_gen 32767 (fun _ : Nat => 0) 2)) :=
  ⟨fun _ => Nat.zero_le _,
    generator_rows_perm 32767 (fun _ => 0) 2 (fun _ => Nat.zero_le _)⟩

theorem generator_shuffle_chain_witness :
    (∀ k, (fun _ : Nat => 32767) k ≤ 32767) ∧
    (randlist_after 32767 (fun _ : Nat => 32767) 2 0 = List.range 2 ∧
      (∀ k : Nat, randlist_after 32767 (fun _ : Nat => 32767) 2 (k + 1) =
        shuffle_array 32767 (fun _ : Nat => 32767) ((2 - 1) * k)
          (randlist_after 32767 (fun _ : Nat => 32767) 2 k) 2) ∧
      ∀ k : Nat, (randlist_after 32767 (fun _ : Nat => 32767) 2 k).Perm (List.range 2)) :=
  ⟨fun _ => Nat.le_refl _,
    generator_shuffle_chain 32767 (fun _ => 32767) 2 (fun _ => Nat.le_refl _)⟩

theorem parse_args_usage_witness :
    (parse_args ["sm", "5"] = ArgOutcome.usageError ↔
      (["sm", "5"] : List String).length = 1) ∧
    ((["sm", "5"] : List String).length = 2 →
      parse_args ["sm", "5"] = ArgOutcome.run (atoi ((["sm", "5"] : List String).getD 1 ""))) :=
  parse_args_usage ["sm", "5"]

theorem extra_args_silent_witness :
    2 < (["sm", "1", "2"] : List String).length ∧
    (parse_args ["sm", "1", "2"] = ArgOutcome.run 0 ∧
      (∀ sp bp : List (List Nat), gs_run sp bp 0 = init_state 0) ∧
      (init_state 0).seller_matches = [] ∧ (init_state 0).buyer_matches = [] ∧
      (∀ (RMAX : Nat) (r : Nat → Nat),
        seller_prefs_gen RMAX r 0 = [] ∧ buyer_prefs_gen RMAX r 0 = [])) :=
  ⟨by decide, extra_args_silent ["sm", "1", "2"] (by decide)⟩

end StableMarriage
